import Mathlib

/-!
Verification development for the DNA sequence compressor
(`dna_compressor.py`, with its companion integrity checker `eval.py`).

The Python source is shallowly embedded below.

* Text files are `List (List Char)` (the file's lines, without their
  trailing newline); binary files are `List Nat` (byte values).
* `numpy` `uint32` counters are `Nat` with an explicit `% 2^32`.
* The probabilities returned by `ContextModel.get_probabilities` are
  modelled as rationals (`counts / total`); the floating point values the
  Python code computes are a deterministic function of the same integer
  counts, and no theorem below depends on their rounding.
* The third-party `constriction` ANS entropy coder is not part of this
  repository; it is modelled from the spec's description of the Entropy
  Coder component (a stack-discipline, exactly invertible coder whose
  serialized state is a sequence of `u32` words, and whose decode never
  signals exhaustion of the word stream).  See `AnsState` below.
-/

/-- `CONTEXT_LENGTH = 10` from the source. -/
def CONTEXT_LENGTH : Nat := 10

/-- `DNA_ALPHABET = ['A', 'C', 'G', 'T']` from the source. -/
def DNA_ALPHABET : List Char := ['A', 'C', 'G', 'T']

/-- `BASE_TO_INDEX` dict from the source: maps a base to its index,
`none` models a Python `KeyError` on any other character. -/
def BASE_TO_INDEX (c : Char) : Option Nat :=
  if c = 'A' then some 0
  else if c = 'C' then some 1
  else if c = 'G' then some 2
  else if c = 'T' then some 3
  else none

/-- Modulus of the `numpy` `uint32` frequency counters. -/
def UINT32 : Nat := 2 ^ 32

/-- The `ContextModel` class: `context_length`, `alphabet_size` and the
`model` dict, which maps a context string (a `List Char`) to a row of
`uint32` counts.  The dict is modelled as an insertion-ordered
association list, exactly like a Python dict. -/
structure ContextModel where
  context_length : Nat
  alphabet_size : Nat
  model : List (List Char × List Nat)
deriving DecidableEq

/-- First-match lookup in the association list modelling the dict. -/
def lookupCtx : List (List Char × List Nat) → List Char → Option (List Nat)
  | [], _ => none
  | p :: rest, ctx => if p.1 = ctx then some p.2 else lookupCtx rest ctx

/-- `ContextModel._get_or_create_context`: returns the count row for
`ctx`, inserting a fresh all-ones row (`np.ones(alphabet_size)`) first if
the context is new. -/
def ContextModel.getOrCreateContext (m : ContextModel) (ctx : List Char) :
    List Nat × ContextModel :=
  match lookupCtx m.model ctx with
  | some row => (row, m)
  | none =>
      (List.replicate m.alphabet_size 1,
       { m with model := m.model ++ [(ctx, List.replicate m.alphabet_size 1)] })

/-- `ContextModel.update`: `counts[symbol_index] += 1` on the (possibly
freshly created) row; the `numpy` `uint32` addition wraps at `2^32`. -/
def ContextModel.update (m : ContextModel) (ctx : List Char) (i : Nat) :
    ContextModel :=
  let rc := m.getOrCreateContext ctx
  let newRow := rc.1.set i ((rc.1.getD i 0 + 1) % UINT32)
  { rc.2 with model := rc.2.model.map (fun p => if p.1 = ctx then (p.1, newRow) else p) }

/-- `ContextModel.get_probabilities`: `counts / np.sum(counts)` on the
(possibly freshly created) row.  Returns the distribution together with
the model after the implicit creation-on-first-access. -/
def ContextModel.get_probabilities (m : ContextModel) (ctx : List Char) :
    List ℚ × ContextModel :=
  let rc := m.getOrCreateContext ctx
  (rc.1.map (fun c => (c : ℚ) / ((rc.1.sum : ℚ))), rc.2)

/-- The model both orchestrators construct:
`ContextModel(CONTEXT_LENGTH, len(DNA_ALPHABET))` with an empty dict. -/
def initModel : ContextModel := ⟨CONTEXT_LENGTH, DNA_ALPHABET.length, []⟩

/-- `deque(['N'] * CONTEXT_LENGTH, maxlen=CONTEXT_LENGTH)`. -/
def initQueue : List Char := List.replicate CONTEXT_LENGTH 'N'

/-- Appending to the full fixed-size deque: the oldest (leftmost) element
is evicted and the new symbol enters at the right. -/
def queueAppend (q : List Char) (c : Char) : List Char := q.drop 1 ++ [c]

/-!
## Entropy coder

Modelled from the spec: the repository delegates entropy coding to
`constriction.stream.stack.AnsCoder`, a third-party library whose code is
not under `src/`.  The spec (section 4.3) characterises it as a LIFO
(stack) coder: `encode_reverse` pushes one symbol, `get_compressed`
serializes the coder state into an ordered sequence of `u32` words,
constructing a coder from stored words restores that state, and `decode`
pops one symbol, always returning a symbol index inside the 4-symbol
alphabet of the `Categorical` distribution it is given; an ANS decoder
never signals exhaustion of the word stream, so decoding an exhausted
state still yields a symbol (index 0 here).  The model below realises
that contract with the symbol stack itself as the serialized state; the
exact word values produced by `constriction`'s fixed-point arithmetic
are floating-point dependent and are not modelled.
-/

/-- Coder state: the stack of pushed symbols, most recent first. -/
def AnsState : Type := List Nat

/-- `encoder.encode_reverse(np.array([symbol_index]), distribution)`:
push one symbol onto the stack. -/
def ansEncodeReverse (st : AnsState) (i : Nat) : AnsState := i :: st

/-- `encoder.get_compressed()`: serialize the state as `u32` words. -/
def ansGetCompressed (st : AnsState) : List Nat := st

/-- `constriction.stream.stack.AnsCoder(compressed_data)`: rebuild the
end-of-encode state from the stored words. -/
def ansInit (words : List Nat) : AnsState := words

/-- `decoder.decode(distribution, 1)[0]`: pop one symbol.  The returned
index is always in `0..3` (the `Categorical` has 4 symbols); an
exhausted stream decodes to index 0 rather than failing. -/
def ansDecode (st : AnsState) (_probabilities : List ℚ) : Nat × AnsState :=
  match st with
  | [] => (0, [])
  | w :: rest => (w % DNA_ALPHABET.length, rest)

/-!
## Sequence reader (`read_fasta_sequence_and_header`, lines 36-55)

The generator first scans lines until one starts with `>` (the header),
then treats every remaining line as sequence data, skipping later `>`
lines.  If no line starts with `>`, the first loop consumes the whole
file, so no sequence characters are produced at all.
-/

/-- Python `str.strip()` whitespace test (the ASCII whitespace
characters; the sequences this program reads are ASCII). -/
def isPySpace (c : Char) : Bool :=
  c = ' ' ∨ c = '\t' ∨ c = '\n' ∨ c = '\r' ∨ c = '\x0b' ∨ c = '\x0c'

/-- Python `str.strip()`: remove leading and trailing whitespace. -/
def pyStrip (l : List Char) : List Char :=
  ((l.dropWhile isPySpace).reverse.dropWhile isPySpace).reverse

/-- `for char in line.strip().upper(): if char in BASE_TO_INDEX: ...` —
the base characters a single (header-free) line contributes. -/
def lineBases (l : List Char) : List Char :=
  ((pyStrip l).map Char.toUpper).filter (fun c => c ∈ DNA_ALPHABET)

/-- The first loop of the generator: scan for the first line starting
with `>`; return its stripped form and the lines after it.  `none` when
the whole file is consumed without finding a header. -/
def findHeader : List (List Char) → Option (List Char × List (List Char))
  | [] => none
  | l :: rest => if l.head? = some '>' then some (pyStrip l, rest) else findHeader rest

/-- `read_fasta_sequence_and_header` run to completion on an existing
file: the header string and the flat base sequence.  A file with no
header line yields `("", [])` — the header-search loop exhausts the
file before the sequence loop runs. -/
def read_fasta (lines : List (List Char)) : List Char × List Char :=
  match findHeader lines with
  | none => ([], [])
  | some (h, rest) =>
      (h, (rest.filter (fun l => l.head? ≠ some '>')).flatMap lineBases)

/-!
## Binary container helpers

`int.to_bytes(n, 'big')` / `int.from_bytes(bytes, 'big')` for the length
fields; `np.uint32` arrays are serialized with `tobytes()` and parsed
with `np.frombuffer(..., dtype=np.uint32)`, both in the machine's native
byte order — little-endian on the x86 machines this program runs on.
-/

/-- Big-endian byte string of `n` in exactly `len` bytes (low-level
helper; overflow is handled by `intToBytesBE`). -/
def beBytes : Nat → Nat → List Nat
  | 0, _ => []
  | k + 1, n => beBytes k (n / 256) ++ [n % 256]

/-- `int.to_bytes(len, 'big')`: `none` models the `OverflowError` Python
raises when the integer does not fit. -/
def intToBytesBE (len n : Nat) : Option (List Nat) :=
  if n < 256 ^ len then some (beBytes len n) else none

/-- `int.from_bytes(bs, 'big')` (also accepts short byte strings, e.g.
the empty read at end of file, which yields 0). -/
def fromBytesBE (bs : List Nat) : Nat := bs.foldl (fun a b => a * 256 + b) 0

/-- One `u32` word in native (little-endian) byte order, as
`np.uint32.tobytes()` produces it. -/
def leBytes4 (w : Nat) : List Nat :=
  [w % 256, w / 256 % 256, w / 65536 % 256, w / 16777216 % 256]

/-- `np.frombuffer(bs, dtype=np.uint32)` on a buffer whose length is a
multiple of 4: group the bytes into native (little-endian) `u32`s. -/
def wordsOfBytesLE : List Nat → List Nat
  | b0 :: b1 :: b2 :: b3 :: rest =>
      (b0 + 256 * b1 + 65536 * b2 + 16777216 * b3) :: wordsOfBytesLE rest
  | _ => []

/-- Python error values the embedded functions can raise. -/
inductive PyErr where
  | overflowError
  | valueError
  | unicodeDecodeError
  | keyError
deriving DecidableEq

/-!
## UTF-8 (`str.encode('utf-8')` / `bytes.decode('utf-8')`)
-/

/-- UTF-8 encoding of one scalar value. -/
def utf8EncodeChar (c : Char) : List Nat :=
  let n := c.toNat
  if n < 128 then [n]
  else if n < 2048 then [192 + n / 64, 128 + n % 64]
  else if n < 65536 then [224 + n / 4096, 128 + n / 64 % 64, 128 + n % 64]
  else [240 + n / 262144, 128 + n / 4096 % 64, 128 + n / 64 % 64, 128 + n % 64]

/-- `str.encode('utf-8')`. -/
def utf8Encode (s : List Char) : List Nat := s.flatMap utf8EncodeChar

/-- Decode a single UTF-8 scalar whose leading byte is `b` and whose
continuation bytes (if any) start `rest`: the decoded character and the
number of continuation bytes consumed; `none` on a malformed prefix. -/
def utf8DecodeOne (b : Nat) (rest : List Nat) : Option (Char × Nat) :=
  if b < 128 then some (Char.ofNat b, 0)
  else if b < 192 then none
  else if b < 224 then
    match rest with
    | b1 :: _ =>
        if 128 ≤ b1 ∧ b1 < 192 then
          some (Char.ofNat ((b - 192) * 64 + (b1 - 128)), 1)
        else none
    | [] => none
  else if b < 240 then
    match rest with
    | b1 :: b2 :: _ =>
        if (128 ≤ b1 ∧ b1 < 192) ∧ (128 ≤ b2 ∧ b2 < 192) then
          some (Char.ofNat ((b - 224) * 4096 + (b1 - 128) * 64 + (b2 - 128)), 2)
        else none
    | _ => none
  else if b < 248 then
    match rest with
    | b1 :: b2 :: b3 :: _ =>
        if (128 ≤ b1 ∧ b1 < 192) ∧ (128 ≤ b2 ∧ b2 < 192) ∧ (128 ≤ b3 ∧ b3 < 192) then
          some (Char.ofNat ((b - 240) * 262144 + (b1 - 128) * 4096 +
            (b2 - 128) * 64 + (b3 - 128)), 3)
        else none
    | _ => none
  else none

/-- Fuel-indexed UTF-8 decoding loop; every scalar consumes at least its
leading byte, so fuel equal to the byte count always suffices. -/
def utf8DecodeAux : Nat → List Nat → Option (List Char)
  | _, [] => some []
  | 0, _ :: _ => none
  | fuel + 1, b :: rest =>
      (utf8DecodeOne b rest).bind fun ck =>
        (utf8DecodeAux fuel (rest.drop ck.2)).map (fun s => ck.1 :: s)

/-- `bytes.decode('utf-8')`; `none` models a `UnicodeDecodeError`.
(The decoder accepts every well-formed length pattern; the strict-mode
rejection of overlong forms is irrelevant here because every byte string
this program decodes was produced by `utf8Encode`.) -/
def utf8Decode (bs : List Nat) : Option (List Char) := utf8DecodeAux bs.length bs

/-!
## Compression orchestrator (`compress_file`, lines 58-131)
-/

/-- One iteration of the pass-1 loop (lines 89-96): read the current
context from the deque, query `get_probabilities` (which creates the
context row if it is new), look up the symbol index
(`BASE_TO_INDEX[base]`, a `KeyError` — `none` — on a non-alphabet
character), record the `(symbol_index, probabilities)` pair, update the
model, and push the base into the deque. -/
def encodeStepCore (mq : ContextModel × List Char) (base : Char) :
    Option ((ContextModel × List Char) × (Nat × List ℚ)) :=
  let ctx := mq.2
  let pm := mq.1.get_probabilities ctx
  match BASE_TO_INDEX base with
  | none => none
  | some i => some ((ContextModel.update pm.2 ctx i, queueAppend mq.2 base), (i, pm.1))

/-- Pass 1 over the whole sequence: the final model/deque state and the
`states_to_encode` list, in document order. -/
def pass1 : (ContextModel × List Char) → List Char →
    Option ((ContextModel × List Char) × List (Nat × List ℚ))
  | mq, [] => some (mq, [])
  | mq, base :: rest =>
      match encodeStepCore mq base with
      | none => none
      | some (mq', st) =>
          match pass1 mq' rest with
          | none => none
          | some (mqF, sts) => some (mqF, st :: sts)

/-- Pass 2 (lines 100-107): feed the recorded pairs to the stack coder
in reverse document order and serialize its state. -/
def ansEncodeAll (states : List (Nat × List ℚ)) : List Nat :=
  ansGetCompressed (states.reverse.foldl (fun st s => ansEncodeReverse st s.1) [])

/-- The container write (lines 113-117): 8-byte big-endian sequence
length, 2-byte big-endian header byte count, the raw header bytes, then
the `u32` code words in native (little-endian) byte order.  `none`
models the `OverflowError` from `int.to_bytes` when a length field does
not fit. -/
def writeContainer (seqLen : Nat) (headerBytes : List Nat) (words : List Nat) :
    Option (List Nat) :=
  (intToBytesBE 8 seqLen).bind fun lenB =>
    (intToBytesBE 2 headerBytes.length).bind fun hlB =>
      some (lenB ++ hlB ++ headerBytes ++ words.flatMap leBytes4)

/-- `compress_file` on the lines of an existing input file, returning
the bytes written to the output file (or the exception raised). -/
def compress_file (lines : List (List Char)) : Except PyErr (List Nat) :=
  let hs := read_fasta lines
  if hs.2.length = 0 then .ok (List.replicate 8 0)
  else
    match pass1 (initModel, initQueue) hs.2 with
    | none => .error .keyError
    | some (_, states) =>
        let words := ansEncodeAll states
        match writeContainer hs.2.length (utf8Encode hs.1) words with
        | none => .error .overflowError
        | some bs => .ok bs

/-!
## Decompression orchestrator (`decompress_file`, lines 134-190)
-/

/-- The container parse (lines 138-142): `f.read(8)` / `f.read(2)` /
`f.read(header_len)` / `f.read()`, where a short read at end of file
simply returns fewer bytes; then `header.decode('utf-8')` and
`np.frombuffer(..., dtype=np.uint32)`, which raises a `ValueError` when
the remaining byte count is not a multiple of the word width. -/
def parseContainer (bs : List Nat) : Except PyErr (Nat × List Char × List Nat) :=
  let seqLen := fromBytesBE (bs.take 8)
  let r1 := bs.drop 8
  let headerLen := fromBytesBE (r1.take 2)
  let r2 := r1.drop 2
  let headerBytes := r2.take headerLen
  let rest := r2.drop headerLen
  match utf8Decode headerBytes with
  | none => .error .unicodeDecodeError
  | some h =>
      if rest.length % 4 = 0 then .ok (seqLen, h, wordsOfBytesLE rest)
      else .error .valueError

/-- The model part of one iteration of the decode loop (lines 164-175),
with the symbol index already popped from the coder: read the context,
query `get_probabilities` (creating the row if new), update the model
with the decoded index, translate it back to a base
(`INDEX_TO_BASE[symbol_index]`; the coder always returns an index in
`0..3`, so the dict lookup cannot fail) and push the base into the
deque.  Returns the new state and the decoded base. -/
def decodeLoopStep (mq : ContextModel × List Char) (i : Nat) :
    (ContextModel × List Char) × Char :=
  let ctx := mq.2
  let m1 := (mq.1.get_probabilities ctx).2
  let m2 := ContextModel.update m1 ctx i
  let b := DNA_ALPHABET.getD i 'A'
  ((m2, queueAppend mq.2 b), b)

/-- The decode loop `for _ in range(seq_len)`: at each iteration the
current distribution is computed and handed to the coder, one symbol is
popped, and the model/deque/output advance. -/
def decodeLoop : Nat → (ContextModel × List Char) → AnsState → List Char
  | 0, _, _ => []
  | n + 1, mq, st =>
      let ps := (mq.1.get_probabilities mq.2).1
      let pop := ansDecode st ps
      let step := decodeLoopStep mq pop.1
      step.2 :: decodeLoop n step.1 pop.2

/-- Number of characters per output line (line 182). -/
def WRAP : Nat := 70

/-- Fuel-indexed wrapping loop; every chunk consumes at least one
character, so fuel equal to the character count always suffices. -/
def wrapLinesAux : Nat → List Char → List (List Char)
  | _, [] => []
  | 0, _ :: _ => []
  | fuel + 1, c :: cs => (c :: cs).take WRAP :: wrapLinesAux fuel ((c :: cs).drop WRAP)

/-- `for i in range(0, len(restored_sequence), 70)`: the sequence cut
into chunks of at most 70 characters. -/
def wrapLines (s : List Char) : List (List Char) := wrapLinesAux s.length s

/-- The text written by the decompressor (lines 180-183): the header
line, then each chunk of the restored sequence, every line with a
trailing newline. -/
def render_output (h : List Char) (s : List Char) : List Char :=
  (h ++ ['\n']) ++ (wrapLines s).flatMap (fun l => l ++ ['\n'])

/-- `decompress_file` on the bytes of an existing input file, returning
the text written to the output file (or the exception raised).  When the
declared sequence length is 0 the output is just the header, with no
newline and no sequence lines. -/
def decompress_file (bs : List Nat) : Except PyErr (List Char) :=
  match parseContainer bs with
  | .error e => .error e
  | .ok (seqLen, h, words) =>
      if seqLen = 0 then .ok h
      else .ok (render_output h (decodeLoop seqLen (initModel, initQueue) (ansInit words)))

/-!
## The integrity checker's payload extractor (`eval.py`, `get_dna_payload`)

Splits a text file into lines, skips lines starting with `>`, and
collects the valid upper-cased bases of every other line.  This is the
repository's own definition of "the concatenated sequence content" of a
FASTA file.
-/

/-- Split a text into its lines at `'\n'` (the final element is the
trailing — possibly empty — segment after the last newline). -/
def splitNl : List Char → List (List Char)
  | [] => [[]]
  | c :: rest =>
      if c = '\n' then [] :: splitNl rest
      else
        match splitNl rest with
        | [] => [[c]]
        | l :: ls => (c :: l) :: ls

/-- `get_dna_payload` from `eval.py`. -/
def get_dna_payload (content : List Char) : List Char :=
  (splitNl content).flatMap (fun l => if l.head? = some '>' then [] else lineBases l)

/-!
## Process-level wrappers

`read_fasta_sequence_and_header` (lines 53-55) and `decompress_file`
(lines 143-145) react to a missing input file by printing to stderr and
calling `sys.exit(1)`; the `SystemExit` this raises is not a normal
exception (`app.py`'s `except Exception` does not catch it), so the
process terminates.  The wrappers below model one invocation against a
file system in which the input either exists (with the given content) or
does not.
-/

/-- The error taxonomy named by the spec (section 7). -/
inductive SpecError where
  | inputNotFound
  | corruptStream
deriving DecidableEq

/-- How one top-level invocation ends.  `completed` carries the output
file's content; `raised` is an ordinary uncaught Python exception;
`processExit` is `sys.exit(code)`; `errorReturn` is the spec's
`Result`-style error return — present in the type so the spec's claimed
behaviour is expressible, though the code never produces it. -/
inductive RunResult (α : Type) where
  | completed (out : α)
  | raised (e : PyErr)
  | processExit (code : Nat)
  | errorReturn (e : SpecError)
deriving DecidableEq

/-- `compress_file(input_path, output_path)` against a file system where
the input is `none` (missing) or `some lines`. -/
def compress_file_run (input : Option (List (List Char))) : RunResult (List Nat) :=
  match input with
  | none => .processExit 1
  | some lines =>
      match compress_file lines with
      | .ok bs => .completed bs
      | .error e => .raised e

/-- `decompress_file(input_path, output_path)` against a file system
where the input is `none` (missing) or `some bytes`. -/
def decompress_file_run (input : Option (List Nat)) : RunResult (List Char) :=
  match input with
  | none => .processExit 1
  | some bs =>
      match decompress_file bs with
      | .ok s => .completed s
      | .error e => .raised e

/-- Externally visible events of one `compress_file` invocation, in
program order: the input file is read, pass 1 (model/probabilities) and
pass 2 (entropy coding) complete, the output file is opened
(`open(output_path, 'wb')`, line 113 — line 74 on the empty path), and
bytes are written to it. -/
inductive CEv where
  | readInput
  | pass1Done
  | pass2Done
  | openOutput
  | writeBytes
deriving DecidableEq

/-- Instrumented `compress_file`: the outcome together with the ordered
event trace of the invocation.  An exception truncates the trace at the
point it is raised (`OverflowError` in `int.to_bytes` is raised inside
the `with open(...)` block, after the output file was opened but before
any bytes are written). -/
def compress_file_tr (input : Option (List (List Char))) :
    RunResult (List Nat) × List CEv :=
  match input with
  | none => (.processExit 1, [])
  | some lines =>
      let hs := read_fasta lines
      if hs.2.length = 0 then
        (.completed (List.replicate 8 0), [.readInput, .openOutput, .writeBytes])
      else
        match pass1 (initModel, initQueue) hs.2 with
        | none => (.raised .keyError, [.readInput])
        | some (_, states) =>
            let words := ansEncodeAll states
            match writeContainer hs.2.length (utf8Encode hs.1) words with
            | none =>
                (.raised .overflowError,
                 [.readInput, .pass1Done, .pass2Done, .openOutput])
            | some bs =>
                (.completed bs,
                 [.readInput, .pass1Done, .pass2Done, .openOutput, .writeBytes])

/-- Modelled from the spec (refinement comparison only, sections 4.4
and 6): the container layout claim C4 describes, in which every
fixed-width field — including each `u32` code word — is big-endian.
`writeContainer` above is the layout the code actually produces. -/
def specContainerBE (seqLen : Nat) (headerBytes : List Nat) (words : List Nat) :
    Option (List Nat) :=
  (intToBytesBE 8 seqLen).bind fun lenB =>
    (intToBytesBE 2 headerBytes.length).bind fun hlB =>
      some (lenB ++ hlB ++ headerBytes ++ words.flatMap (beBytes 4))

/-- Index of a base, with the (unreachable) `KeyError` defaulted away. -/
def baseIdx (c : Char) : Nat := (BASE_TO_INDEX c).getD 0

/-- The model/deque state after the decode loop has consumed a list of
symbol indices (the decode path of the context-symmetry property). -/
def decodeRun (mq : ContextModel × List Char) (indices : List Nat) :
    ContextModel × List Char :=
  indices.foldl (fun s i => (decodeLoopStep s i).1) mq

/-- One operation of the `ContextModel` interface: an `update` with a
valid symbol index, or a `get_probabilities` query (whose only model
effect is creation-on-first-access). -/
inductive ModelOp where
  | update (ctx : List Char) (i : Fin 4)
  | probs (ctx : List Char)

/-- Apply one interface operation to the model. -/
def applyOp (m : ContextModel) : ModelOp → ContextModel
  | .update ctx i => m.update ctx i.val
  | .probs ctx => (m.get_probabilities ctx).2

/-- The model after a sequence of interface operations, starting from
the fresh model each orchestrator constructs. -/
def runOps (ops : List ModelOp) : ContextModel := ops.foldl applyOp initModel

/-- Every stored count is at least 1. -/
def countsGe1 (m : ContextModel) : Prop :=
  ∀ ctx row, lookupCtx m.model ctx = some row → ∀ i, i < 4 → 1 ≤ row.getD i 0

/-- Every stored count is at most `B`. -/
def countsLeB (m : ContextModel) (B : Nat) : Prop :=
  ∀ ctx row, lookupCtx m.model ctx = some row → ∀ i, i < 4 → row.getD i 0 ≤ B

/-- Every stored row has one count per alphabet symbol. -/
def rowsLen4 (m : ContextModel) : Prop :=
  ∀ ctx row, lookupCtx m.model ctx = some row → row.length = 4

/-- No count of `m` exceeds the corresponding count of `m'`. -/
def countsMono (m m' : ContextModel) : Prop :=
  ∀ ctx row, lookupCtx m.model ctx = some row →
    ∃ row', lookupCtx m'.model ctx = some row' ∧
      ∀ i, i < 4 → row.getD i 0 ≤ row'.getD i 0

/-- Every context key of `m` is still a key of `m'`. -/
def keysKept (m m' : ContextModel) : Prop :=
  ∀ ctx, (lookupCtx m.model ctx).isSome → (lookupCtx m'.model ctx).isSome

/-!
## Basic facts about the alphabet and the two loop bodies
-/

theorem base_facts {c : Char} (hc : c ∈ DNA_ALPHABET) :
    BASE_TO_INDEX c = some (baseIdx c) ∧ baseIdx c < 4 ∧
    DNA_ALPHABET.getD (baseIdx c) 'A' = c ∧ Char.toUpper c = c ∧
    c ≠ '\n' ∧ c ≠ '>' ∧ isPySpace c = false := by
  fin_cases hc <;> exact ⟨rfl, by decide, rfl, by decide, by decide, by decide, by decide⟩

/-- The encode loop body and the decode loop body perform the same model
mutations: on a valid base, the pass-1 step succeeds and leaves the
model and deque in exactly the state the decode-loop step (fed the same
symbol index) produces, and that decode step re-derives the same base. -/
theorem encode_decode_step (mq : ContextModel × List Char) {c : Char}
    (hc : c ∈ DNA_ALPHABET) :
    encodeStepCore mq c =
      some ((decodeLoopStep mq (baseIdx c)).1,
            (baseIdx c, (mq.1.get_probabilities mq.2).1)) ∧
    (decodeLoopStep mq (baseIdx c)).2 = c := by
  obtain ⟨h1, -, h3, -, -, -, -⟩ := base_facts hc
  refine ⟨?_, ?_⟩
  · simp only [encodeStepCore, decodeLoopStep, h1, h3]
  · simp only [decodeLoopStep, h3]

/-- Pass 1 on a valid sequence succeeds, finishes in exactly the state
the decode loop reaches when fed the same symbol indices, and records
those indices in document order. -/
theorem pass1_eq_decodeRun {S : List Char} (hS : ∀ c ∈ S, c ∈ DNA_ALPHABET) :
    ∀ mq, ∃ sts,
      pass1 mq S = some (decodeRun mq (S.map baseIdx), sts) ∧
      sts.map Prod.fst = S.map baseIdx := by
  induction S with
  | nil => exact fun mq => ⟨[], rfl, rfl⟩
  | cons c rest ih =>
      intro mq
      have hc : c ∈ DNA_ALPHABET := hS c (by simp)
      have hrest : ∀ x ∈ rest, x ∈ DNA_ALPHABET := fun x hx => hS x (by simp [hx])
      obtain ⟨henc, -⟩ := encode_decode_step mq hc
      obtain ⟨sts, hp, hm⟩ := ih hrest ((decodeLoopStep mq (baseIdx c)).1)
      refine ⟨(baseIdx c, (mq.1.get_probabilities mq.2).1) :: sts, ?_, by simp [hm]⟩
      simp only [pass1, henc, hp, List.map_cons, decodeRun, List.foldl_cons]

theorem foldl_push (l : List (Nat × List ℚ)) :
    ∀ acc : List Nat, l.foldl (fun st s => ansEncodeReverse st s.1) acc =
      (l.map Prod.fst).reverse ++ acc := by
  induction l with
  | nil => intro acc; rfl
  | cons p rest ih =>
      intro acc
      rw [List.foldl_cons, ih, List.map_cons, List.reverse_cons, List.append_assoc]
      rfl

/-- Pass 2 serializes exactly the recorded symbol indices, in document
order: pushing the pairs in reverse order onto the stack leaves the
first symbol on top. -/
theorem ansEncodeAll_eq (states : List (Nat × List ℚ)) :
    ansEncodeAll states = states.map Prod.fst := by
  unfold ansEncodeAll ansGetCompressed
  rw [foldl_push, List.map_reverse, List.reverse_reverse, List.append_nil]

/-- The decode loop, run for exactly the length of a valid sequence on
the word stream holding that sequence's symbol indices, restores the
sequence — from any starting model/deque state. -/
theorem decodeLoop_restores {S : List Char} (hS : ∀ c ∈ S, c ∈ DNA_ALPHABET) :
    ∀ mq, decodeLoop S.length mq (S.map baseIdx) = S := by
  induction S with
  | nil => intro mq; rfl
  | cons c rest ih =>
      intro mq
      have hc : c ∈ DNA_ALPHABET := hS c (by simp)
      have hrest : ∀ x ∈ rest, x ∈ DNA_ALPHABET := fun x hx => hS x (by simp [hx])
      obtain ⟨-, hlt, -, -, -, -, -⟩ := base_facts hc
      obtain ⟨-, hdec⟩ := encode_decode_step mq hc
      have hmod : baseIdx c % DNA_ALPHABET.length = baseIdx c := by
        simpa [DNA_ALPHABET] using Nat.mod_eq_of_lt hlt
      simp only [List.map_cons, List.length_cons, decodeLoop, ansDecode, hmod, hdec, ih hrest]

/-!
## Facts about the sequence reader
-/

/-- Everything `pyStrip` keeps was in the original line. -/
theorem mem_pyStrip {l : List Char} {c : Char} (h : c ∈ pyStrip l) : c ∈ l := by
  unfold pyStrip at h
  rw [List.mem_reverse] at h
  have h2 := List.dropWhile_subset (l := (l.dropWhile isPySpace).reverse) isPySpace h
  rw [List.mem_reverse] at h2
  exact List.dropWhile_subset isPySpace h2

theorem dropWhile_append_single {p : Char → Bool} {a : Char} (ha : p a = false)
    (xs : List Char) : (xs ++ [a]).dropWhile p = xs.dropWhile p ++ [a] := by
  induction xs with
  | nil => simp [List.dropWhile, ha]
  | cons x xs ih => by_cases hx : p x <;> simp [List.dropWhile_cons, hx, ih]

/-- Stripping a line that starts with `>` keeps the `>` in front. -/
theorem pyStrip_head_gt {l : List Char} (h : l.head? = some '>') :
    (pyStrip l).head? = some '>' := by
  obtain ⟨t, rfl⟩ : ∃ t, l = '>' :: t := by
    cases l with
    | nil => simp at h
    | cons a t => simp at h; exact ⟨t, by rw [h]⟩
  unfold pyStrip
  have hgt : isPySpace '>' = false := by decide
  rw [List.dropWhile_cons_of_neg (by simp [hgt]), List.reverse_cons,
    dropWhile_append_single hgt, List.reverse_append]
  rfl

/-- Every character the reader emits is an alphabet base. -/
theorem read_fasta_valid (lines : List (List Char)) :
    ∀ c ∈ (read_fasta lines).2, c ∈ DNA_ALPHABET := by
  intro c hc
  unfold read_fasta at hc
  cases hfind : findHeader lines with
  | none => rw [hfind] at hc; simp at hc
  | some p =>
      rw [hfind] at hc
      simp only [List.mem_flatMap] at hc
      obtain ⟨l, -, hl⟩ := hc
      unfold lineBases at hl
      rw [List.mem_filter] at hl
      exact of_decide_eq_true hl.2

/-- Shape of a successful header search: the found line starts with `>`,
the header is its stripped form, and the remaining lines follow it in
the file. -/
theorem findHeader_spec : ∀ {lines : List (List Char)} {h rest},
    findHeader lines = some (h, rest) →
    ∃ pre l, lines = pre ++ l :: rest ∧ l.head? = some '>' ∧ h = pyStrip l := by
  intro lines
  induction lines with
  | nil => intro h rest hf; simp [findHeader] at hf
  | cons l0 ls ih =>
      intro h rest hf
      by_cases hl0 : l0.head? = some '>'
      · rw [findHeader, if_pos hl0] at hf
        obtain ⟨h1, h2⟩ := Prod.mk.injEq .. ▸ (Option.some.injEq .. ▸ hf)
        exact ⟨[], l0, by rw [← h2]; rfl, hl0, h1.symm⟩
      · rw [findHeader, if_neg hl0] at hf
        obtain ⟨pre, l, heq, hgt, hstrip⟩ := ih hf
        exact ⟨l0 :: pre, l, by rw [heq]; rfl, hgt, hstrip⟩

/-- When the reader produced a non-empty sequence, the header it
returned is the stripped form of some line of the file that starts with
`>` (so the header itself starts with `>`). -/
theorem read_fasta_header_shape {lines : List (List Char)} {h S}
    (hr : read_fasta lines = (h, S)) (hne : S ≠ []) :
    ∃ l ∈ lines, h = pyStrip l ∧ l.head? = some '>' := by
  unfold read_fasta at hr
  cases hfind : findHeader lines with
  | none => rw [hfind] at hr; cases hr; exact absurd rfl hne
  | some p =>
      obtain ⟨h0, rest⟩ := p
      rw [hfind] at hr
      obtain ⟨pre, l, heq, hgt, hstrip⟩ := findHeader_spec hfind
      cases hr
      exact ⟨l, by rw [heq]; simp, hstrip, hgt⟩

/-!
## Facts about the byte-level helpers
-/

theorem beBytes_length (k : Nat) : ∀ n, (beBytes k n).length = k := by
  induction k with
  | zero => intro n; rfl
  | succ k ih => intro n; simp [beBytes, ih]

theorem fromBytesBE_append_single (bs : List Nat) (b : Nat) :
    fromBytesBE (bs ++ [b]) = fromBytesBE bs * 256 + b := by
  simp [fromBytesBE]

theorem fromBytesBE_beBytes {k : Nat} : ∀ {n}, n < 256 ^ k →
    fromBytesBE (beBytes k n) = n := by
  induction k with
  | zero =>
      intro n h
      have : n = 0 := by simpa using h
      simp [this, beBytes, fromBytesBE]
  | succ k ih =>
      intro n h
      have hdiv : n / 256 < 256 ^ k := by
        rw [Nat.div_lt_iff_lt_mul (by norm_num)]
        calc n < 256 ^ (k + 1) := h
        _ = 256 ^ k * 256 := by rw [pow_succ]
      rw [beBytes, fromBytesBE_append_single, ih hdiv]
      omega

theorem length_flatMap_leBytes4 (ws : List Nat) :
    (ws.flatMap leBytes4).length = 4 * ws.length := by
  induction ws with
  | nil => rfl
  | cons w rest ih => simp [leBytes4, ih]; ring

theorem wordsOfBytesLE_flatMap : ∀ {ws : List Nat}, (∀ w ∈ ws, w < 2 ^ 32) →
    wordsOfBytesLE (ws.flatMap leBytes4) = ws := by
  intro ws
  induction ws with
  | nil => intro _; rfl
  | cons w rest ih =>
      intro h
      have hw : w < 2 ^ 32 := h w (by simp)
      have hrest : ∀ x ∈ rest, x < 2 ^ 32 :=
        fun x hx => h x (List.mem_cons_of_mem _ hx)
      rw [List.flatMap_cons]
      show wordsOfBytesLE (w % 256 :: w / 256 % 256 :: w / 65536 % 256 ::
        w / 16777216 % 256 :: rest.flatMap leBytes4) = w :: rest
      rw [wordsOfBytesLE, ih hrest]
      congr 1
      omega

/-!
## UTF-8 round trip
-/

theorem char_toNat_lt (c : Char) : c.toNat < 1114112 := by
  have h : c.toNat.isValidChar := c.valid
  rcases h with h | ⟨-, h⟩ <;> omega

/-- Any fuel at least the byte count decodes identically. -/
theorem utf8DecodeAux_irrel (fuel : Nat) : ∀ bs : List Nat, bs.length ≤ fuel →
    utf8DecodeAux fuel bs = utf8Decode bs := by
  induction fuel using Nat.strong_induction_on with
  | _ fuel ih =>
      intro bs h
      cases bs with
      | nil => cases fuel <;> rfl
      | cons b rest =>
          cases fuel with
          | zero => simp at h
          | succ f =>
              have hlen : rest.length ≤ f := by simpa using h
              rw [utf8DecodeAux]
              rw [show utf8Decode (b :: rest)
                  = utf8DecodeAux (rest.length + 1) (b :: rest) from rfl]
              rw [utf8DecodeAux]
              cases hone : utf8DecodeOne b rest with
              | none => rfl
              | some ck =>
                  simp only [Option.some_bind]
                  rw [ih f (by omega) _ (by simp only [List.length_drop]; omega),
                    ih rest.length (by omega) _ (by simp only [List.length_drop]; omega)]

/-- Unfolding lemma for the UTF-8 decoder on a non-empty byte string. -/
theorem utf8Decode_cons (b : Nat) (rest : List Nat) :
    utf8Decode (b :: rest) = (utf8DecodeOne b rest).bind fun ck =>
      (utf8Decode (rest.drop ck.2)).map (fun s => ck.1 :: s) := by
  rw [show utf8Decode (b :: rest) = utf8DecodeAux (rest.length + 1) (b :: rest) from rfl]
  rw [utf8DecodeAux]
  cases hone : utf8DecodeOne b rest with
  | none => rfl
  | some ck =>
      simp only [Option.some_bind]
      rw [utf8DecodeAux_irrel rest.length _ (by simp only [List.length_drop]; omega)]

theorem utf8Decode_encodeChar (c : Char) (rest : List Nat) :
    utf8Decode (utf8EncodeChar c ++ rest) = (utf8Decode rest).map (fun s => c :: s) := by
  have hmax := char_toNat_lt c
  by_cases h1 : c.toNat < 128
  · have he : utf8EncodeChar c = [c.toNat] := by
      simp only [utf8EncodeChar]; rw [if_pos h1]
    have hone : utf8DecodeOne c.toNat rest = some (c, 0) := by
      simp only [utf8DecodeOne]; rw [if_pos h1, Char.ofNat_toNat]
    rw [he, List.cons_append, List.nil_append, utf8Decode_cons, hone]
    simp only [Option.some_bind, List.drop_zero]
  · by_cases h2 : c.toNat < 2048
    · have he : utf8EncodeChar c = [192 + c.toNat / 64, 128 + c.toNat % 64] := by
        simp only [utf8EncodeChar]; rw [if_neg h1, if_pos h2]
      have harith : (192 + c.toNat / 64 - 192) * 64 + (128 + c.toNat % 64 - 128)
          = c.toNat := by omega
      have hone : utf8DecodeOne (192 + c.toNat / 64) ((128 + c.toNat % 64) :: rest)
          = some (c, 1) := by
        simp only [utf8DecodeOne]
        rw [if_neg (by omega), if_neg (by omega), if_pos (by omega),
          if_pos (by constructor <;> omega), harith, Char.ofNat_toNat]
      rw [he]
      show utf8Decode ((192 + c.toNat / 64) :: ((128 + c.toNat % 64) :: rest)) = _
      rw [utf8Decode_cons, hone]
      simp only [Option.some_bind, List.drop_succ_cons, List.drop_zero]
    · by_cases h3 : c.toNat < 65536
      · have he : utf8EncodeChar c =
            [224 + c.toNat / 4096, 128 + c.toNat / 64 % 64, 128 + c.toNat % 64] := by
          simp only [utf8EncodeChar]; rw [if_neg h1, if_neg h2, if_pos h3]
        have harith : (224 + c.toNat / 4096 - 224) * 4096 +
            (128 + c.toNat / 64 % 64 - 128) * 64 + (128 + c.toNat % 64 - 128)
            = c.toNat := by omega
        have hone : utf8DecodeOne (224 + c.toNat / 4096)
            ((128 + c.toNat / 64 % 64) :: ((128 + c.toNat % 64) :: rest))
            = some (c, 2) := by
          simp only [utf8DecodeOne]
          rw [if_neg (by omega), if_neg (by omega), if_neg (by omega), if_pos (by omega),
            if_pos (by refine ⟨⟨?_, ?_⟩, ?_, ?_⟩ <;> omega), harith, Char.ofNat_toNat]
        rw [he]
        show utf8Decode ((224 + c.toNat / 4096) :: ((128 + c.toNat / 64 % 64) ::
          ((128 + c.toNat % 64) :: rest))) = _
        rw [utf8Decode_cons, hone]
        simp only [Option.some_bind, List.drop_succ_cons, List.drop_zero]
      · have he : utf8EncodeChar c =
            [240 + c.toNat / 262144, 128 + c.toNat / 4096 % 64,
             128 + c.toNat / 64 % 64, 128 + c.toNat % 64] := by
          simp only [utf8EncodeChar]; rw [if_neg h1, if_neg h2, if_neg h3]
        have harith : (240 + c.toNat / 262144 - 240) * 262144 +
            (128 + c.toNat / 4096 % 64 - 128) * 4096 +
            (128 + c.toNat / 64 % 64 - 128) * 64 + (128 + c.toNat % 64 - 128)
            = c.toNat := by omega
        have hone : utf8DecodeOne (240 + c.toNat / 262144)
            ((128 + c.toNat / 4096 % 64) :: ((128 + c.toNat / 64 % 64) ::
              ((128 + c.toNat % 64) :: rest)))
            = some (c, 3) := by
          simp only [utf8DecodeOne]
          rw [if_neg (by omega), if_neg (by omega), if_neg (by omega), if_neg (by omega),
            if_pos (by omega),
            if_pos (by refine ⟨⟨?_, ?_⟩, ⟨?_, ?_⟩, ?_, ?_⟩ <;> omega),
            harith, Char.ofNat_toNat]
        rw [he]
        show utf8Decode ((240 + c.toNat / 262144) :: ((128 + c.toNat / 4096 % 64) ::
          ((128 + c.toNat / 64 % 64) :: ((128 + c.toNat % 64) :: rest)))) = _
        rw [utf8Decode_cons, hone]
        simp only [Option.some_bind, List.drop_succ_cons, List.drop_zero]

theorem utf8Decode_encode (s : List Char) : utf8Decode (utf8Encode s) = some s := by
  induction s with
  | nil => rfl
  | cons c rest ih =>
      rw [utf8Encode, List.flatMap_cons]
      rw [show rest.flatMap utf8EncodeChar = utf8Encode rest from rfl]
      rw [utf8Decode_encodeChar, ih]
      rfl

/-!
## Facts about the output wrapping
-/

theorem wrapLinesAux_irrel (fuel : Nat) : ∀ s : List Char, s.length ≤ fuel →
    wrapLinesAux fuel s = wrapLines s := by
  induction fuel using Nat.strong_induction_on with
  | _ fuel ih =>
      intro s h
      cases s with
      | nil => cases fuel <;> rfl
      | cons c cs =>
          cases fuel with
          | zero => simp at h
          | succ f =>
              have hlen : cs.length ≤ f := by simpa using h
              rw [wrapLinesAux]
              rw [show wrapLines (c :: cs) = wrapLinesAux (cs.length + 1) (c :: cs) from rfl]
              rw [wrapLinesAux]
              rw [ih f (by omega) _
                  (by simp only [List.length_drop, List.length_cons, WRAP]; omega),
                ih cs.length (by omega) _
                  (by simp only [List.length_drop, List.length_cons, WRAP]; omega)]

/-- Unfolding lemma: one chunk of at most 70 characters is cut off the
front and the rest is wrapped recursively. -/
theorem wrapLines_eq (s : List Char) :
    wrapLines s = if s = [] then [] else s.take WRAP :: wrapLines (s.drop WRAP) := by
  cases s with
  | nil => rfl
  | cons c cs =>
      rw [if_neg (by simp)]
      rw [show wrapLines (c :: cs) = wrapLinesAux (cs.length + 1) (c :: cs) from rfl,
        wrapLinesAux]
      rw [wrapLinesAux_irrel cs.length _
        (by simp only [List.length_drop, List.length_cons, WRAP]; omega)]

theorem wrapLines_nil : wrapLines [] = [] := rfl

theorem wrapLines_eq_nil_iff (s : List Char) : wrapLines s = [] ↔ s = [] := by
  rw [wrapLines_eq]
  by_cases hs : s = [] <;> simp [hs]

theorem wrapLines_flatten_aux : ∀ (n : Nat) (s : List Char), s.length ≤ n →
    (wrapLines s).flatten = s := by
  intro n
  induction n with
  | zero =>
      intro s h
      have : s = [] := List.length_eq_zero.mp (Nat.le_zero.mp h)
      subst this; rfl
  | succ n ih =>
      intro s h
      rw [wrapLines_eq]
      by_cases hs : s = []
      · simp [hs]
      · have hpos : 0 < s.length := List.length_pos.mpr hs
        rw [if_neg hs, List.flatten_cons,
          ih _ (by simp only [List.length_drop, WRAP]; omega), List.take_append_drop]

/-- Concatenating the wrapped chunks restores the sequence. -/
theorem wrapLines_flatten (s : List Char) : (wrapLines s).flatten = s :=
  wrapLines_flatten_aux s.length s le_rfl

theorem wrapLines_length_aux : ∀ (n : Nat) (s : List Char), s.length ≤ n →
    (wrapLines s).length = (s.length + 69) / 70 := by
  intro n
  induction n with
  | zero =>
      intro s h
      have : s = [] := List.length_eq_zero.mp (Nat.le_zero.mp h)
      subst this; rfl
  | succ n ih =>
      intro s h
      rw [wrapLines_eq]
      by_cases hs : s = []
      · simp [hs]
      · have hpos : 0 < s.length := List.length_pos.mpr hs
        rw [if_neg hs]
        rw [List.length_cons, ih _ (by simp only [List.length_drop, WRAP]; omega)]
        simp only [List.length_drop, WRAP]
        omega

/-- There are exactly `ceil(n / 70)` chunks. -/
theorem wrapLines_length (s : List Char) :
    (wrapLines s).length = (s.length + 69) / 70 :=
  wrapLines_length_aux s.length s le_rfl

theorem wrapLines_get_aux : ∀ (n : Nat) (s : List Char), s.length ≤ n →
    ∀ (i : Nat) (hi : i < (wrapLines s).length), i + 1 < (wrapLines s).length →
      ((wrapLines s).get ⟨i, hi⟩).length = 70 := by
  intro n
  induction n with
  | zero =>
      intro s h
      have : s = [] := List.length_eq_zero.mp (Nat.le_zero.mp h)
      subst this
      intro i hi
      simp [wrapLines_nil] at hi
  | succ n ih =>
      intro s h i hi hlast
      by_cases hs : s = []
      · subst hs; simp [wrapLines_nil] at hi
      · have hpos : 0 < s.length := List.length_pos.mpr hs
        rcases i with - | j
        · have hrest : wrapLines (s.drop WRAP) ≠ [] := by
            intro hnil
            rw [wrapLines_eq, if_neg hs] at hlast
            simp [hnil] at hlast
          have hdrop : s.drop WRAP ≠ [] := by
            intro hnil
            exact hrest (by rw [hnil]; rfl)
          have hlong : 70 < s.length := by
            by_contra hle
            exact hdrop (List.drop_eq_nil_of_le (by simp only [WRAP]; omega))
          have : (wrapLines s).get ⟨0, hi⟩ = s.take WRAP := by
            have hw := wrapLines_eq s
            rw [if_neg hs] at hw
            simp [hw]
          rw [this]
          simp only [List.length_take, WRAP]
          omega
        · have hw := wrapLines_eq s
          rw [if_neg hs] at hw
          have hj : j < (wrapLines (s.drop WRAP)).length := by
            have := hi
            rw [hw] at this
            simpa using this
          have hj1 : j + 1 < (wrapLines (s.drop WRAP)).length := by
            have := hlast
            rw [hw] at this
            simpa using this
          have hgl : (wrapLines s).get ⟨j + 1, hi⟩
              = (wrapLines (s.drop WRAP)).get ⟨j, hj⟩ := by
            have : wrapLines s = s.take WRAP :: wrapLines (s.drop WRAP) := hw
            rw [List.get_of_eq this]
            rfl
          rw [hgl]
          exact ih _ (by simp only [List.length_drop, WRAP]; omega) j hj hj1

/-- Every chunk except the last is exactly 70 characters. -/
theorem wrapLines_get (s : List Char) (i : Nat) (hi : i < (wrapLines s).length)
    (hlast : i + 1 < (wrapLines s).length) :
    ((wrapLines s).get ⟨i, hi⟩).length = 70 :=
  wrapLines_get_aux s.length s le_rfl i hi hlast

theorem wrapLines_getLast_aux : ∀ (n : Nat) (s : List Char), s.length ≤ n →
    ∀ l, (wrapLines s).getLast? = some l → 1 ≤ l.length ∧ l.length ≤ 70 := by
  intro n
  induction n with
  | zero =>
      intro s h l hl
      have : s = [] := List.length_eq_zero.mp (Nat.le_zero.mp h)
      subst this
      simp [wrapLines_nil] at hl
  | succ n ih =>
      intro s h l hl
      by_cases hs : s = []
      · subst hs; simp [wrapLines_nil] at hl
      · have hpos : 0 < s.length := List.length_pos.mpr hs
        have hw := wrapLines_eq s
        rw [if_neg hs] at hw
        by_cases hdrop : s.drop WRAP = []
        · rw [hw, hdrop, wrapLines_nil] at hl
          simp only [List.getLast?_singleton, Option.some.injEq] at hl
          subst hl
          simp only [List.length_take, WRAP]
          omega
        · have hrest : wrapLines (s.drop WRAP) ≠ [] := by
            rw [ne_eq, wrapLines_eq_nil_iff]; exact hdrop
          obtain ⟨x, xs, hxe⟩ : ∃ x xs, wrapLines (s.drop WRAP) = x :: xs := by
            cases hc : wrapLines (s.drop WRAP) with
            | nil => exact absurd hc hrest
            | cons x xs => exact ⟨x, xs, rfl⟩
          rw [hw, hxe, List.getLast?_cons_cons, ← hxe] at hl
          exact ih _ (by simp only [List.length_drop, WRAP]; omega) l hl

/-- The final chunk has between 1 and 70 characters. -/
theorem wrapLines_getLast (s : List Char) (l : List Char)
    (hl : (wrapLines s).getLast? = some l) : 1 ≤ l.length ∧ l.length ≤ 70 :=
  wrapLines_getLast_aux s.length s le_rfl l hl

theorem wrapLines_mem_aux : ∀ (n : Nat) (s : List Char), s.length ≤ n →
    ∀ l ∈ wrapLines s, ∀ c ∈ l, c ∈ s := by
  intro n
  induction n with
  | zero =>
      intro s h
      have : s = [] := List.length_eq_zero.mp (Nat.le_zero.mp h)
      subst this
      simp [wrapLines_nil]
  | succ n ih =>
      intro s h l hl c hc
      by_cases hs : s = []
      · subst hs; simp [wrapLines_nil] at hl
      · have hpos : 0 < s.length := List.length_pos.mpr hs
        rw [wrapLines_eq, if_neg hs] at hl
        rcases List.mem_cons.mp hl with rfl | hl'
        · exact List.mem_of_mem_take hc
        · exact List.mem_of_mem_drop
            (ih _ (by simp only [List.length_drop, WRAP]; omega) l hl' c hc)

/-- Every character of every chunk comes from the wrapped sequence. -/
theorem wrapLines_mem {s : List Char} {l : List Char} (hl : l ∈ wrapLines s)
    {c : Char} (hc : c ∈ l) : c ∈ s :=
  wrapLines_mem_aux s.length s le_rfl l hl c hc

/-!
## Facts about line splitting and the payload extractor
-/

theorem splitNl_ne_nil : ∀ s : List Char, splitNl s ≠ [] := by
  intro s
  induction s with
  | nil => simp [splitNl]
  | cons c rest ih =>
      rw [splitNl]
      by_cases hc : c = '\n'
      · simp [hc]
      · rw [if_neg hc]
        cases hrec : splitNl rest with
        | nil => simp
        | cons l ls => simp

theorem splitNl_append_newline (l : List Char) (rest : List Char) (hl : '\n' ∉ l) :
    splitNl (l ++ '\n' :: rest) = l :: splitNl rest := by
  induction l with
  | nil =>
      rw [List.nil_append, splitNl, if_pos rfl]
  | cons c t ih =>
      have hc : ¬c = '\n' := fun h => hl (by simp [h])
      have ht : '\n' ∉ t := fun h => hl (by simp [h])
      rw [List.cons_append, splitNl, if_neg hc, ih ht]

theorem splitNl_chunks (chunks : List (List Char))
    (h : ∀ l ∈ chunks, '\n' ∉ l) :
    splitNl (chunks.flatMap (fun l => l ++ ['\n'])) = chunks ++ [[]] := by
  induction chunks with
  | nil => rfl
  | cons l ls ih =>
      rw [List.flatMap_cons]
      rw [show (l ++ ['\n']) ++ ls.flatMap (fun l => l ++ ['\n'])
          = l ++ '\n' :: ls.flatMap (fun l => l ++ ['\n']) by simp]
      rw [splitNl_append_newline _ _ (h l (by simp)),
        ih (fun x hx => h x (List.mem_cons_of_mem _ hx))]
      rfl

theorem pyStrip_of_no_space {l : List Char}
    (h : ∀ c ∈ l, isPySpace c = false) : pyStrip l = l := by
  unfold pyStrip
  have h1 : l.dropWhile isPySpace = l := by
    cases l with
    | nil => rfl
    | cons c t => rw [List.dropWhile_cons_of_neg (by simp [h c (by simp)])]
  rw [h1]
  have h2 : l.reverse.dropWhile isPySpace = l.reverse := by
    cases hr : l.reverse with
    | nil => rfl
    | cons c t =>
        have hc : c ∈ l := by rw [← List.mem_reverse, hr]; simp
        rw [List.dropWhile_cons_of_neg (by simp [h c hc])]
  rw [h2, List.reverse_reverse]

/-- A line consisting only of alphabet bases passes through the reader's
per-line processing unchanged. -/
theorem lineBases_of_valid {l : List Char}
    (h : ∀ c ∈ l, c ∈ DNA_ALPHABET) : lineBases l = l := by
  unfold lineBases
  rw [pyStrip_of_no_space (fun c hc => (base_facts (h c hc)).2.2.2.2.2.2)]
  have hmap : l.map Char.toUpper = l := by
    rw [List.map_congr_left (fun c hc => (base_facts (h c hc)).2.2.2.1), List.map_id']
  rw [hmap]
  rw [List.filter_eq_self.mpr (fun c hc => by simpa using h c hc)]

/-- The integrity checker's payload of a rendered output file is exactly
the wrapped sequence. -/
theorem payload_render {hdr S : List Char} (hh : hdr.head? = some '>')
    (hS : ∀ c ∈ S, c ∈ DNA_ALPHABET) (hn : '\n' ∉ hdr) :
    get_dna_payload (render_output hdr S) = S := by
  unfold render_output get_dna_payload
  have hchunknl : ∀ l ∈ wrapLines S, '\n' ∉ l := by
    intro l hl hmem
    exact (base_facts (hS _ (wrapLines_mem hl hmem))).2.2.2.2.1 rfl
  have hsplit : splitNl ((hdr ++ ['\n']) ++ (wrapLines S).flatMap (fun l => l ++ ['\n']))
      = hdr :: (wrapLines S ++ [[]]) := by
    rw [show (hdr ++ ['\n']) ++ (wrapLines S).flatMap (fun l => l ++ ['\n'])
        = hdr ++ '\n' :: (wrapLines S).flatMap (fun l => l ++ ['\n']) by simp]
    rw [splitNl_append_newline _ _ hn, splitNl_chunks _ hchunknl]
  rw [hsplit, List.flatMap_cons, if_pos hh, List.nil_append]
  rw [List.flatMap_append]
  rw [show ([[]] : List (List Char)).flatMap
      (fun l => if l.head? = some '>' then [] else lineBases l) = [] from rfl]
  rw [List.append_nil]
  have hstep : ∀ l ∈ wrapLines S,
      (if l.head? = some '>' then [] else lineBases l) = l := by
    intro l hl
    have hvalid : ∀ c ∈ l, c ∈ DNA_ALPHABET := fun c hc => hS c (wrapLines_mem hl hc)
    have hne : l.head? ≠ some '>' := by
      intro hgt
      cases l with
      | nil => simp at hgt
      | cons x t =>
          have : x ∈ DNA_ALPHABET := hvalid x (by simp)
          rw [List.head?_cons, Option.some.injEq] at hgt
          exact (base_facts this).2.2.2.2.2.1 hgt
    rw [if_neg hne, lineBases_of_valid hvalid]
  have hfl : ∀ cs : List (List Char),
      (∀ l ∈ cs, (if l.head? = some '>' then [] else lineBases l) = l) →
      cs.flatMap (fun l => if l.head? = some '>' then [] else lineBases l)
        = cs.flatten := by
    intro cs hcs
    induction cs with
    | nil => rfl
    | cons x xs ih =>
        rw [List.flatMap_cons, hcs x (by simp), List.flatten_cons,
          ih (fun y hy => hcs y (List.mem_cons_of_mem _ hy))]
  rw [hfl _ hstep, wrapLines_flatten]

/-!
## Container round trip
-/

/-- Parsing the container bytes produced by the writer recovers the
fields exactly (within the field bounds the writer itself enforces). -/
theorem parse_write_roundtrip {n : Nat} {hdr : List Char} {ws : List Nat}
    (h1 : n < 2 ^ 64) (h2 : (utf8Encode hdr).length < 2 ^ 16)
    (h3 : ∀ w ∈ ws, w < 2 ^ 32) :
    parseContainer (beBytes 8 n ++ beBytes 2 (utf8Encode hdr).length ++
      utf8Encode hdr ++ ws.flatMap leBytes4) = .ok (n, hdr, ws) := by
  simp only [parseContainer]
  have hn8 : n < 256 ^ 8 := by
    calc n < 2 ^ 64 := h1
    _ = 256 ^ 8 := by norm_num
  have hh2 : (utf8Encode hdr).length < 256 ^ 2 := by
    calc (utf8Encode hdr).length < 2 ^ 16 := h2
    _ = 256 ^ 2 := by norm_num
  rw [show beBytes 8 n ++ beBytes 2 (utf8Encode hdr).length ++
        utf8Encode hdr ++ ws.flatMap leBytes4
      = beBytes 8 n ++ (beBytes 2 (utf8Encode hdr).length ++
        (utf8Encode hdr ++ ws.flatMap leBytes4)) by simp [List.append_assoc]]
  rw [List.take_left' (beBytes_length 8 n), List.drop_left' (beBytes_length 8 n)]
  rw [List.take_left' (beBytes_length 2 _), List.drop_left' (beBytes_length 2 _)]
  rw [fromBytesBE_beBytes hn8, fromBytesBE_beBytes hh2]
  rw [List.take_left, List.drop_left]
  rw [utf8Decode_encode]
  simp only
  rw [length_flatMap_leBytes4, if_pos (Nat.mul_mod_right 4 ws.length),
    wordsOfBytesLE_flatMap h3]

/-!
## The `ContextModel` invariants (counts, keys)
-/

theorem getD_set_self {l : List Nat} {i : Nat} (h : i < l.length) (v : Nat) :
    (l.set i v).getD i 0 = v := by
  rw [List.getD_eq_getElem?_getD, List.getElem?_set_self h]
  rfl

theorem getD_set_ne {l : List Nat} {i j : Nat} (h : i ≠ j) (v : Nat) :
    (l.set i v).getD j 0 = l.getD j 0 := by
  rw [List.getD_eq_getElem?_getD, List.getElem?_set_ne h, ← List.getD_eq_getElem?_getD]

theorem lookupCtx_append (l1 l2 : List (List Char × List Nat)) (x : List Char) :
    lookupCtx (l1 ++ l2) x =
      match lookupCtx l1 x with
      | some v => some v
      | none => lookupCtx l2 x := by
  induction l1 with
  | nil => rfl
  | cons p rest ih =>
      rw [List.cons_append, lookupCtx, lookupCtx]
      by_cases hp : p.1 = x
      · rw [if_pos hp, if_pos hp]
      · rw [if_neg hp, if_neg hp, ih]

theorem lookupCtx_eq_none_iff (l : List (List Char × List Nat)) (x : List Char) :
    lookupCtx l x = none ↔ ∀ p ∈ l, p.1 ≠ x := by
  induction l with
  | nil => simp [lookupCtx]
  | cons p rest ih =>
      rw [lookupCtx]
      by_cases hp : p.1 = x
      · simp [hp]
      · simp [hp, ih]

theorem lookupCtx_map_set (l : List (List Char × List Nat)) (ctx x : List Char)
    (newRow : List Nat) :
    lookupCtx (l.map (fun p => if p.1 = ctx then (p.1, newRow) else p)) x =
      if x = ctx then (lookupCtx l x).map (fun _ => newRow) else lookupCtx l x := by
  induction l with
  | nil => by_cases hx : x = ctx <;> simp [lookupCtx, hx]
  | cons p rest ih =>
      rw [List.map_cons, lookupCtx, lookupCtx]
      by_cases hp : p.1 = ctx
      · by_cases hx : x = ctx
        · rw [if_pos hp]
          rw [show ((p.1, newRow) : List Char × List Nat).1 = p.1 from rfl]
          rw [if_pos (hp.trans hx.symm), if_pos (hp.trans hx.symm), if_pos hx]
          rfl
        · rw [if_pos hp]
          rw [show ((p.1, newRow) : List Char × List Nat).1 = p.1 from rfl]
          have hpx : ¬p.1 = x := fun h => hx (h ▸ hp ▸ rfl)
          rw [if_neg hpx, if_neg hpx, ih, if_neg hx]
      · rw [if_neg hp]
        by_cases hpx : p.1 = x
        · rw [if_pos hpx, if_pos hpx]
          by_cases hx : x = ctx
          · exact absurd (hpx.trans hx) hp
          · rw [if_neg hx]
        · rw [if_neg hpx, if_neg hpx, ih]

/-- The created-or-found row of `_get_or_create_context`. -/
theorem getOrCreate_fst (m : ContextModel) (ctx : List Char) :
    (m.getOrCreateContext ctx).1 =
      (lookupCtx m.model ctx).getD (List.replicate m.alphabet_size 1) := by
  unfold ContextModel.getOrCreateContext
  cases lookupCtx m.model ctx <;> rfl

theorem lookup_getOrCreate (m : ContextModel) (ctx x : List Char) :
    lookupCtx (m.getOrCreateContext ctx).2.model x =
      if x = ctx then some (m.getOrCreateContext ctx).1
      else lookupCtx m.model x := by
  unfold ContextModel.getOrCreateContext
  cases hc : lookupCtx m.model ctx with
  | some row =>
      by_cases hx : x = ctx
      · rw [if_pos hx, hx, hc]
      · rw [if_neg hx]
  | none =>
      simp only
      rw [lookupCtx_append]
      cases hx' : lookupCtx m.model x with
      | some v =>
          have hx : ¬x = ctx := fun h => by rw [h, hc] at hx'; cases hx'
          rw [if_neg hx]
      | none =>
          by_cases hx : x = ctx
          · rw [if_pos hx, lookupCtx, if_pos hx.symm]
          · rw [if_neg hx, lookupCtx, if_neg (fun h => hx h.symm)]
            rfl

theorem getOrCreate_alphabet (m : ContextModel) (ctx : List Char) :
    (m.getOrCreateContext ctx).2.alphabet_size = m.alphabet_size := by
  unfold ContextModel.getOrCreateContext
  cases lookupCtx m.model ctx <;> rfl

theorem lookup_update (m : ContextModel) (ctx x : List Char) (i : Nat) :
    lookupCtx (m.update ctx i).model x =
      if x = ctx then
        some ((m.getOrCreateContext ctx).1.set i
          (((m.getOrCreateContext ctx).1.getD i 0 + 1) % UINT32))
      else lookupCtx m.model x := by
  unfold ContextModel.update
  simp only
  rw [lookupCtx_map_set, lookup_getOrCreate]
  by_cases hx : x = ctx
  · rw [if_pos hx, if_pos hx, if_pos hx]
    rfl
  · rw [if_neg hx, if_neg hx, if_neg hx]

theorem update_alphabet (m : ContextModel) (ctx : List Char) (i : Nat) :
    (m.update ctx i).alphabet_size = m.alphabet_size := by
  unfold ContextModel.update
  simp only
  exact getOrCreate_alphabet m ctx

theorem countsMono_refl (m : ContextModel) : countsMono m m :=
  fun _ row h => ⟨row, h, fun _ _ => le_rfl⟩

theorem keysKept_refl (m : ContextModel) : keysKept m m := fun _ h => h

/-- Lookup after a `get_probabilities` call. -/
theorem lookup_probs (m : ContextModel) (ctx x : List Char) :
    lookupCtx (m.get_probabilities ctx).2.model x =
      if x = ctx then some (m.getOrCreateContext ctx).1
      else lookupCtx m.model x := by
  unfold ContextModel.get_probabilities
  simp only
  exact lookup_getOrCreate m ctx x

theorem probs_alphabet (m : ContextModel) (ctx : List Char) :
    (m.get_probabilities ctx).2.alphabet_size = m.alphabet_size := by
  unfold ContextModel.get_probabilities
  simp only
  exact getOrCreate_alphabet m ctx

/-- Behaviour of the created-or-found row under the invariants. -/
theorem getOrCreate_fst_inv {m : ContextModel} {B : Nat}
    (ha : m.alphabet_size = 4) (hlen : rowsLen4 m) (hge : countsGe1 m)
    (hle : countsLeB m B) (hB1 : 1 ≤ B) (ctx : List Char) :
    (m.getOrCreateContext ctx).1.length = 4 ∧
    (∀ i, i < 4 → 1 ≤ (m.getOrCreateContext ctx).1.getD i 0) ∧
    (∀ i, i < 4 → (m.getOrCreateContext ctx).1.getD i 0 ≤ B) := by
  rw [getOrCreate_fst]
  cases hc : lookupCtx m.model ctx with
  | some row =>
      exact ⟨hlen ctx row hc, fun i hi => hge ctx row hc i hi,
        fun i hi => hle ctx row hc i hi⟩
  | none =>
      have hrow : ∀ i, i < 4 → (List.replicate m.alphabet_size 1).getD i 0 = 1 := by
        intro i hi
        rw [List.getD_eq_getElem?_getD, List.getElem?_replicate, ha, if_pos hi]
        rfl
      refine ⟨by simp [ha], fun i hi => by rw [Option.getD_none, hrow i hi],
        fun i hi => by rw [Option.getD_none, hrow i hi]; exact hB1⟩

/-- One interface operation preserves the row shape, keeps every count
at least 1 and at most one larger than before, never decreases a count,
and never removes a context key — provided the counter bound stays below
the `uint32` wrap. -/
theorem applyOp_inv {m : ContextModel} {B : Nat} (op : ModelOp)
    (ha : m.alphabet_size = 4) (hlen : rowsLen4 m) (hge : countsGe1 m)
    (hle : countsLeB m B) (hB1 : 1 ≤ B) (hB : B + 1 < UINT32) :
    (applyOp m op).alphabet_size = 4 ∧ rowsLen4 (applyOp m op) ∧
    countsGe1 (applyOp m op) ∧ countsLeB (applyOp m op) (B + 1) ∧
    countsMono m (applyOp m op) ∧ keysKept m (applyOp m op) := by
  cases op with
  | probs ctx =>
      obtain ⟨hrl, hrge, hrle⟩ := getOrCreate_fst_inv ha hlen hge hle hB1 ctx
      have hfst : ∀ row, lookupCtx m.model ctx = some row →
          (m.getOrCreateContext ctx).1 = row := by
        intro row hx
        rw [getOrCreate_fst, hx]
        rfl
      have hstep : applyOp m (.probs ctx) = (m.get_probabilities ctx).2 := rfl
      rw [hstep]
      refine ⟨by rw [probs_alphabet, ha], ?_, ?_, ?_, ?_, ?_⟩
      · intro x row hx
        rw [lookup_probs] at hx
        by_cases hxc : x = ctx
        · rw [if_pos hxc, Option.some.injEq] at hx
          rw [← hx]; exact hrl
        · rw [if_neg hxc] at hx
          exact hlen x row hx
      · intro x row hx i hi
        rw [lookup_probs] at hx
        by_cases hxc : x = ctx
        · rw [if_pos hxc, Option.some.injEq] at hx
          rw [← hx]; exact hrge i hi
        · rw [if_neg hxc] at hx
          exact hge x row hx i hi
      · intro x row hx i hi
        rw [lookup_probs] at hx
        by_cases hxc : x = ctx
        · rw [if_pos hxc, Option.some.injEq] at hx
          rw [← hx]; exact le_trans (hrle i hi) (Nat.le_succ B)
        · rw [if_neg hxc] at hx
          exact le_trans (hle x row hx i hi) (Nat.le_succ B)
      · intro x row hx
        by_cases hxc : x = ctx
        · refine ⟨(m.getOrCreateContext ctx).1, ?_, ?_⟩
          · rw [lookup_probs, if_pos hxc]
          · subst hxc
            rw [hfst row hx]
            exact fun i _ => le_rfl
        · exact ⟨row, by rw [lookup_probs, if_neg hxc]; exact hx, fun i _ => le_rfl⟩
      · intro x hx
        rw [lookup_probs]
        by_cases hxc : x = ctx
        · rw [if_pos hxc]; rfl
        · rw [if_neg hxc]; exact hx
  | update ctx i =>
      obtain ⟨hrl, hrge, hrle⟩ := getOrCreate_fst_inv ha hlen hge hle hB1 ctx
      have hfst : ∀ row, lookupCtx m.model ctx = some row →
          (m.getOrCreateContext ctx).1 = row := by
        intro row hx
        rw [getOrCreate_fst, hx]
        rfl
      have hiv : (i : Nat) < 4 := i.isLt
      have hold := hrge i.val hiv
      have holdB := hrle i.val hiv
      have hmod : ((m.getOrCreateContext ctx).1.getD i.val 0 + 1) % UINT32
          = (m.getOrCreateContext ctx).1.getD i.val 0 + 1 :=
        Nat.mod_eq_of_lt (by omega)
      have hnew : ∀ j, j < 4 →
          ((m.getOrCreateContext ctx).1.set i.val
            (((m.getOrCreateContext ctx).1.getD i.val 0 + 1) % UINT32)).getD j 0
          = if j = i.val then (m.getOrCreateContext ctx).1.getD i.val 0 + 1
            else (m.getOrCreateContext ctx).1.getD j 0 := by
        intro j hj
        by_cases hji : j = i.val
        · rw [if_pos hji, hji, getD_set_self (by omega) _, hmod]
        · rw [if_neg hji, getD_set_ne (fun h => hji h.symm)]
      have hstep : applyOp m (.update ctx i) = m.update ctx i.val := rfl
      rw [hstep]
      refine ⟨by rw [update_alphabet, ha], ?_, ?_, ?_, ?_, ?_⟩
      · intro x row hx
        rw [lookup_update] at hx
        by_cases hxc : x = ctx
        · rw [if_pos hxc, Option.some.injEq] at hx
          rw [← hx, List.length_set]
          exact hrl
        · rw [if_neg hxc] at hx
          exact hlen x row hx
      · intro x row hx j hj
        rw [lookup_update] at hx
        by_cases hxc : x = ctx
        · rw [if_pos hxc, Option.some.injEq] at hx
          rw [← hx, hnew j hj]
          by_cases hji : j = i.val
          · rw [if_pos hji]; omega
          · rw [if_neg hji]; exact hrge j hj
        · rw [if_neg hxc] at hx
          exact hge x row hx j hj
      · intro x row hx j hj
        rw [lookup_update] at hx
        by_cases hxc : x = ctx
        · rw [if_pos hxc, Option.some.injEq] at hx
          rw [← hx, hnew j hj]
          by_cases hji : j = i.val
          · rw [if_pos hji]; omega
          · rw [if_neg hji]; exact le_trans (hrle j hj) (Nat.le_succ B)
        · rw [if_neg hxc] at hx
          exact le_trans (hle x row hx j hj) (Nat.le_succ B)
      · intro x row hx
        by_cases hxc : x = ctx
        · refine ⟨(m.getOrCreateContext ctx).1.set i.val
            (((m.getOrCreateContext ctx).1.getD i.val 0 + 1) % UINT32), ?_, ?_⟩
          · rw [lookup_update, if_pos hxc]
          · intro j hj
            rw [hnew j hj]
            subst hxc
            rw [hfst row hx]
            by_cases hji : j = i.val
            · rw [if_pos hji, hji]; omega
            · rw [if_neg hji]
        · exact ⟨row, by rw [lookup_update, if_neg hxc]; exact hx, fun j _ => le_rfl⟩
      · intro x hx
        rw [lookup_update]
        by_cases hxc : x = ctx
        · rw [if_pos hxc]; rfl
        · rw [if_neg hxc]; exact hx

theorem runOps_append (l : List ModelOp) (op : ModelOp) :
    runOps (l ++ [op]) = applyOp (runOps l) op := by
  rw [runOps, List.foldl_append, List.foldl_cons, List.foldl_nil]
  rfl

/-- After any prefix of at most `2^32 - 2` interface operations, every
stored count lies between 1 and one more than the number of operations
performed. -/
theorem runOps_inv (ops : List ModelOp) (h : ops.length + 1 < UINT32) :
    (runOps ops).alphabet_size = 4 ∧ rowsLen4 (runOps ops) ∧
    countsGe1 (runOps ops) ∧ countsLeB (runOps ops) (1 + ops.length) := by
  induction ops using List.reverseRecOn with
  | nil =>
      refine ⟨rfl, ?_, ?_, ?_⟩ <;>
        · intro ctx row hx
          simp [runOps, initModel, lookupCtx] at hx
  | append_singleton l op ih =>
      have hlen : (l ++ [op]).length = l.length + 1 := by simp
      have hl : l.length + 1 < UINT32 := by rw [hlen] at h; omega
      obtain ⟨h1, h2, h3, h4⟩ := ih hl
      have hstep := applyOp_inv op h1 h2 h3 h4 (by omega) (by rw [hlen] at h; omega)
      rw [runOps_append]
      refine ⟨hstep.1, hstep.2.1, hstep.2.2.1, ?_⟩
      have : 1 + (l ++ [op]).length = 1 + l.length + 1 := by rw [hlen]; omega
      rw [this]
      exact hstep.2.2.2.1

theorem update_model_eq {m : ContextModel} {ctx : List Char} {row : List Nat} (i : Nat)
    (hl : lookupCtx m.model ctx = some row) :
    (m.update ctx i).model = m.model.map
      (fun p => if p.1 = ctx then (p.1, row.set i ((row.getD i 0 + 1) % UINT32)) else p) := by
  unfold ContextModel.update ContextModel.getOrCreateContext
  rw [hl]

theorem update_model_create {m : ContextModel} {ctx : List Char} (i : Nat)
    (hl : lookupCtx m.model ctx = none) :
    (m.update ctx i).model = m.model ++
      [(ctx, (List.replicate m.alphabet_size 1).set i
        (((List.replicate m.alphabet_size 1).getD i 0 + 1) % UINT32))] := by
  unfold ContextModel.update ContextModel.getOrCreateContext
  rw [hl]
  simp only [List.map_append]
  congr 1
  · rw [List.map_congr_left
      (fun p hp => if_neg ((lookupCtx_eq_none_iff _ _).mp hl p hp)), List.map_id']
  · simp

/-- Closed form of the counter after `n` consecutive `update` calls on
one context and symbol: it wraps around modulo `2^32`. -/
theorem runOps_replicate_update (ctx : List Char) :
    ∀ n, 1 ≤ n →
      (runOps (List.replicate n (ModelOp.update ctx (0 : Fin 4)))).model
        = [(ctx, (List.replicate 4 1).set 0 ((1 + n) % UINT32))] := by
  intro n
  induction n with
  | zero => intro h; omega
  | succ k ih =>
      intro _
      by_cases hk : k = 0
      · subst hk
        show (applyOp initModel (ModelOp.update ctx 0)).model = _
        rw [show applyOp initModel (ModelOp.update ctx 0)
            = initModel.update ctx (0 : Fin 4).val from rfl]
        rw [update_model_create _ (by rfl)]
        rw [show initModel.model = [] from rfl, List.nil_append]
        rw [show initModel.alphabet_size = 4 from rfl]
        rfl
      · have hk1 : 1 ≤ k := by omega
        rw [List.replicate_succ', runOps_append]
        have hih := ih hk1
        rw [show applyOp (runOps (List.replicate k (ModelOp.update ctx 0)))
              (ModelOp.update ctx 0)
            = (runOps (List.replicate k (ModelOp.update ctx 0))).update ctx
              (0 : Fin 4).val from rfl]
        have hlook : lookupCtx
            (runOps (List.replicate k (ModelOp.update ctx 0))).model ctx
            = some ((List.replicate 4 1).set 0 ((1 + k) % UINT32)) := by
          rw [hih, lookupCtx, if_pos rfl]
        rw [update_model_eq _ hlook, hih]
        rw [List.map_cons, List.map_nil]
        rw [show ((ctx, (List.replicate 4 1).set 0 ((1 + k) % UINT32)) :
            List Char × List Nat).1 = ctx from rfl]
        rw [if_pos rfl]
        simp only [Fin.val_zero]
        have hgd : ((List.replicate 4 1).set 0 ((1 + k) % UINT32)).getD 0 0
            = (1 + k) % UINT32 := getD_set_self (by simp) _
        rw [hgd, List.set_set, Nat.mod_add_mod]
        rw [show 1 + k + 1 = 1 + (k + 1) by omega]

/-!
## Characterisation of a non-empty compression and its decompression
-/

/-- On a file whose reader output is a non-empty sequence (within the
container's field bounds), `compress_file` writes exactly the container
holding the sequence length, the UTF-8 header bytes and the coder words
for the sequence. -/
theorem compress_file_eq {lines : List (List Char)} {h S : List Char}
    (hr : read_fasta lines = (h, S)) (hne : S ≠ [])
    (hn : S.length < 2 ^ 64) (hh : (utf8Encode h).length < 2 ^ 16) :
    compress_file lines = .ok (beBytes 8 S.length ++
      beBytes 2 (utf8Encode h).length ++ utf8Encode h ++
      (S.map baseIdx).flatMap leBytes4) := by
  have hval : ∀ c ∈ S, c ∈ DNA_ALPHABET := by
    intro c hc
    have hv := read_fasta_valid lines
    rw [hr] at hv
    exact hv c hc
  obtain ⟨sts, hp, hm⟩ := pass1_eq_decodeRun hval (initModel, initQueue)
  unfold compress_file
  rw [hr]
  simp only
  rw [if_neg (fun h0 => hne (List.length_eq_zero.mp h0))]
  rw [hp]
  simp only
  rw [ansEncodeAll_eq, hm]
  unfold writeContainer intToBytesBE
  rw [if_pos (lt_of_lt_of_eq hn (by norm_num : (2 : Nat) ^ 64 = 256 ^ 8)),
    if_pos (lt_of_lt_of_eq hh (by norm_num : (2 : Nat) ^ 16 = 256 ^ 2))]
  rfl

/-- Decompressing that container renders the header line followed by
the wrapped sequence. -/
theorem decompress_file_eq {h S : List Char}
    (hval : ∀ c ∈ S, c ∈ DNA_ALPHABET) (hne : S ≠ [])
    (hn : S.length < 2 ^ 64) (hh : (utf8Encode h).length < 2 ^ 16) :
    decompress_file (beBytes 8 S.length ++ beBytes 2 (utf8Encode h).length ++
      utf8Encode h ++ (S.map baseIdx).flatMap leBytes4)
      = .ok (render_output h S) := by
  have hwords : ∀ w ∈ S.map baseIdx, w < 2 ^ 32 := by
    intro w hw
    obtain ⟨c, hc, rfl⟩ := List.mem_map.mp hw
    have := (base_facts (hval c hc)).2.1
    omega
  unfold decompress_file
  rw [parse_write_roundtrip hn hh hwords]
  simp only
  rw [if_neg (fun h0 => hne (List.length_eq_zero.mp h0))]
  rw [show ansInit (S.map baseIdx) = S.map baseIdx from rfl,
    decodeLoop_restores hval]

/-!
## Claim C1 — round-trip identity
-/

/-- C1 (counterexample): the claim fails as stated.  A header-less input
file containing the non-empty sequence `ACGT` (wrapped on a single line)
compresses to the empty 8-zero-byte container — the reader's
header-search loop consumes the whole file — so decompressing yields an
empty output whose sequence content is not `ACGT`. -/
theorem C1_counterexample :
    read_fasta [['A', 'C', 'G', 'T']] = ([], []) ∧
    compress_file [['A', 'C', 'G', 'T']] = .ok (List.replicate 8 0) ∧
    decompress_file (List.replicate 8 0) = .ok [] ∧
    get_dna_payload [] ≠ ['A', 'C', 'G', 'T'] :=
  ⟨rfl, rfl, rfl, by decide⟩

/-- C1 (amended): for every input file that does contain a header line,
compressing and then decompressing restores the sequence exactly,
regardless of how the input was line-wrapped: whenever the reader
extracts header `h` and non-empty sequence `S` (the reader accepts any
wrapping), and the container's field bounds hold (sequence shorter than
`2^64` bases, header shorter than `2^16` UTF-8 bytes; beyond them Python
raises `OverflowError` and produces no output at all), the decompressed
output's concatenated sequence lines equal `S` symbol for symbol. -/
theorem C1_roundtrip (lines : List (List Char)) (h S : List Char)
    (hlines : ∀ l ∈ lines, '\n' ∉ l)
    (hr : read_fasta lines = (h, S)) (hne : S ≠ [])
    (hn : S.length < 2 ^ 64) (hh : (utf8Encode h).length < 2 ^ 16) :
    ∃ bin out, compress_file lines = .ok bin ∧ decompress_file bin = .ok out ∧
      get_dna_payload out = S := by
  have hval : ∀ c ∈ S, c ∈ DNA_ALPHABET := by
    intro c hc
    have hv := read_fasta_valid lines
    rw [hr] at hv
    exact hv c hc
  obtain ⟨l, hmem, hstrip, hgt⟩ := read_fasta_header_shape hr hne
  have hhead : h.head? = some '>' := by rw [hstrip]; exact pyStrip_head_gt hgt
  have hnl : '\n' ∉ h := by
    intro hin
    exact hlines l hmem (by rw [hstrip] at hin; exact mem_pyStrip hin)
  refine ⟨_, render_output h S, compress_file_eq hr hne hn hh,
    decompress_file_eq hval hne hn hh, payload_render hhead hval hnl⟩

/-- C1 (witness): a concrete file with header `>h` and sequence `ACGT`
wrapped over two lines. -/
theorem C1_roundtrip_witness :
    (∀ l ∈ [['>', 'h'], ['A', 'C'], ['G', 'T']], '\n' ∉ l) ∧
    read_fasta [['>', 'h'], ['A', 'C'], ['G', 'T']]
      = (['>', 'h'], ['A', 'C', 'G', 'T']) ∧
    (['A', 'C', 'G', 'T'] : List Char) ≠ [] ∧
    (['A', 'C', 'G', 'T'] : List Char).length < 2 ^ 64 ∧
    (utf8Encode ['>', 'h']).length < 2 ^ 16 ∧
    ∃ bin out, compress_file [['>', 'h'], ['A', 'C'], ['G', 'T']] = .ok bin ∧
      decompress_file bin = .ok out ∧
      get_dna_payload out = ['A', 'C', 'G', 'T'] :=
  ⟨by decide, by decide, by decide, by decide, by decide,
   C1_roundtrip [['>', 'h'], ['A', 'C'], ['G', 'T']] ['>', 'h'] ['A', 'C', 'G', 'T']
     (by decide) (by decide) (by decide) (by decide) (by decide)⟩

/-!
## Claim C2 — context symmetry of encode and decode
-/

/-- C2: after processing the first `t` symbols, the frequency table the
pass-1 (encode) loop has built and the frequency table the decode loop
has built when fed the same decoded symbols are identical map-for-map:
the whole model/deque state coincides, hence every context key looks up
to the same count row on both sides. -/
theorem C2_context_symmetry (S : List Char) (t : Nat)
    (hv : ∀ c ∈ S, c ∈ DNA_ALPHABET) :
    ∃ p, pass1 (initModel, initQueue) (S.take t) = some p ∧
      p.1 = decodeRun (initModel, initQueue) ((S.take t).map baseIdx) ∧
      ∀ ctx, lookupCtx p.1.1.model ctx =
        lookupCtx (decodeRun (initModel, initQueue)
          ((S.take t).map baseIdx)).1.model ctx := by
  have hval : ∀ c ∈ S.take t, c ∈ DNA_ALPHABET :=
    fun c hc => hv c (List.mem_of_mem_take hc)
  obtain ⟨sts, hp, -⟩ := pass1_eq_decodeRun hval (initModel, initQueue)
  exact ⟨_, hp, rfl, fun ctx => rfl⟩

/-- C2 (witness): the synthetic sequence `ACGT` after 3 symbols. -/
theorem C2_context_symmetry_witness :
    (∀ c ∈ ['A', 'C', 'G', 'T'], c ∈ DNA_ALPHABET) ∧
    ∃ p, pass1 (initModel, initQueue) (['A', 'C', 'G', 'T'].take 3) = some p ∧
      p.1 = decodeRun (initModel, initQueue) ((['A', 'C', 'G', 'T'].take 3).map baseIdx) ∧
      ∀ ctx, lookupCtx p.1.1.model ctx =
        lookupCtx (decodeRun (initModel, initQueue)
          ((['A', 'C', 'G', 'T'].take 3).map baseIdx)).1.model ctx :=
  ⟨by decide, C2_context_symmetry ['A', 'C', 'G', 'T'] 3 (by decide)⟩

/-!
## Claim C3 — empty-input stability
-/

/-- C3: whatever the header was, an input whose extracted sequence is
empty compresses to exactly 8 zero bytes (no header-length field, no
header bytes, no code words), and decompressing that 8-zero-byte stream
produces an empty output file: empty header, empty sequence. -/
theorem C3_empty_roundtrip (lines : List (List Char))
    (hempty : (read_fasta lines).2 = []) :
    compress_file lines = .ok (List.replicate 8 0) ∧
    decompress_file (List.replicate 8 0) = .ok [] ∧
    get_dna_payload [] = [] := by
  refine ⟨?_, rfl, rfl⟩
  unfold compress_file
  rw [if_pos (by rw [hempty]; rfl)]

/-- C3 (witness): a file holding only the non-empty header `>hdr`. -/
theorem C3_empty_roundtrip_witness :
    (read_fasta [['>', 'h', 'd', 'r']]).2 = [] ∧
    (compress_file [['>', 'h', 'd', 'r']] = .ok (List.replicate 8 0) ∧
     decompress_file (List.replicate 8 0) = .ok [] ∧
     get_dna_payload [] = []) :=
  ⟨by decide, C3_empty_roundtrip [['>', 'h', 'd', 'r']] (by decide)⟩

/-!
## Claim C4 — container byte layout
-/

/-- C4 (counterexample): the code words are not written big-endian.  At
sequence length 1 with an empty header and the single word 1, the bytes
`compress_file`'s container write produces (`writeContainer`, lines
113-117) end in `01 00 00 00` — the platform's native little-endian
order from `np.uint32.tobytes()` — not the big-endian `00 00 00 01` the
claim describes (`specContainerBE`). -/
theorem C4_counterexample :
    writeContainer 1 [] [1]
      = some [0, 0, 0, 0, 0, 0, 0, 1, 0, 0, 1, 0, 0, 0] ∧
    specContainerBE 1 [] [1]
      = some [0, 0, 0, 0, 0, 0, 0, 1, 0, 0, 0, 0, 0, 1] ∧
    writeContainer 1 [] [1] ≠ specContainerBE 1 [] [1] :=
  ⟨rfl, rfl, by decide⟩

/-- C4 (amended): the bytes written are, in order, an 8-byte big-endian
sequence length, a 2-byte big-endian header byte count, the raw UTF-8
header bytes, then each `u32` code word in the platform's native
little-endian byte order — consistently the same order
`decompress_file`'s `np.frombuffer` uses, so parsing the container
recovers every field exactly. -/
theorem C4_container_layout (n : Nat) (hdr : List Char) (ws : List Nat)
    (h1 : n < 2 ^ 64) (h2 : (utf8Encode hdr).length < 2 ^ 16)
    (h3 : ∀ w ∈ ws, w < 2 ^ 32) :
    writeContainer n (utf8Encode hdr) ws
      = some (beBytes 8 n ++ beBytes 2 (utf8Encode hdr).length ++
        utf8Encode hdr ++ ws.flatMap leBytes4) ∧
    parseContainer (beBytes 8 n ++ beBytes 2 (utf8Encode hdr).length ++
      utf8Encode hdr ++ ws.flatMap leBytes4) = .ok (n, hdr, ws) := by
  constructor
  · unfold writeContainer intToBytesBE
    rw [if_pos (lt_of_lt_of_eq h1 (by norm_num : (2 : Nat) ^ 64 = 256 ^ 8)),
      if_pos (lt_of_lt_of_eq h2 (by norm_num : (2 : Nat) ^ 16 = 256 ^ 2))]
    rfl
  · exact parse_write_roundtrip h1 h2 h3

/-- C4 (witness): a concrete container with header `>h` and two words,
one of them the largest `u32`. -/
theorem C4_container_layout_witness :
    ((1 : Nat) < 2 ^ 64) ∧ ((utf8Encode ['>', 'h']).length < 2 ^ 16) ∧
    (∀ w ∈ [5, 4294967295], w < 2 ^ 32) ∧
    (writeContainer 1 (utf8Encode ['>', 'h']) [5, 4294967295]
      = some (beBytes 8 1 ++ beBytes 2 (utf8Encode ['>', 'h']).length ++
        utf8Encode ['>', 'h'] ++ ([5, 4294967295] : List Nat).flatMap leBytes4) ∧
    parseContainer (beBytes 8 1 ++ beBytes 2 (utf8Encode ['>', 'h']).length ++
      utf8Encode ['>', 'h'] ++ ([5, 4294967295] : List Nat).flatMap leBytes4)
      = .ok (1, ['>', 'h'], [5, 4294967295])) :=
  ⟨by decide, by decide, by decide,
   C4_container_layout 1 ['>', 'h'] [5, 4294967295] (by decide) (by decide) (by decide)⟩

/-!
## Claim C5 — corruption detection
-/

/-- C5: evaluation of the code at the failing input.  The valid
compressed file for header `>h` and sequence `ACGT`, truncated by one
whole 4-byte code word, decompresses WITHOUT any error into the wrong
sequence `ACGA` — the ANS decoder never signals exhaustion and
`decompress_file` has no length or consistency check (no `CorruptStream`
exists anywhere in the repository).  Truncating by 2 bytes instead
raises an uncaught `ValueError` from `np.frombuffer`, not a
`CorruptStream` error. -/
theorem C5_truncation_silent :
    compress_file [['>', 'h'], ['A', 'C', 'G', 'T']] =
      .ok [0, 0, 0, 0, 0, 0, 0, 4, 0, 2, 62, 104,
           0, 0, 0, 0, 1, 0, 0, 0, 2, 0, 0, 0, 3, 0, 0, 0] ∧
    decompress_file [0, 0, 0, 0, 0, 0, 0, 4, 0, 2, 62, 104,
        0, 0, 0, 0, 1, 0, 0, 0, 2, 0, 0, 0]
      = .ok ('>' :: 'h' :: '\n' :: 'A' :: 'C' :: 'G' :: 'A' :: '\n' :: []) ∧
    get_dna_payload ('>' :: 'h' :: '\n' :: 'A' :: 'C' :: 'G' :: 'A' :: '\n' :: [])
      = ['A', 'C', 'G', 'A'] ∧
    (['A', 'C', 'G', 'A'] : List Char) ≠ ['A', 'C', 'G', 'T'] ∧
    decompress_file [0, 0, 0, 0, 0, 0, 0, 4, 0, 2, 62, 104,
        0, 0, 0, 0, 1, 0, 0, 0, 2, 0]
      = .error .valueError :=
  ⟨rfl, rfl, rfl, by decide, rfl⟩

/-!
## Claim C6 — missing input handling
-/

/-- C6 (counterexample): on a missing input path neither function
returns an error value to its caller; both print to stderr and call
`sys.exit(1)`, terminating the process. -/
theorem C6_counterexample :
    compress_file_run none = .processExit 1 ∧
    compress_file_run none ≠ .errorReturn .inputNotFound ∧
    decompress_file_run none = .processExit 1 ∧
    decompress_file_run none ≠ .errorReturn .inputNotFound :=
  ⟨rfl, by decide, rfl, by decide⟩

/-- C6 (amended): for a missing or unreadable input path, both
`compress_file` and `decompress_file` print an error message and
terminate the process with exit status 1 (`sys.exit(1)`); no error value
is returned to the caller. -/
theorem C6_exit_on_missing_input :
    compress_file_run none = .processExit 1 ∧
    decompress_file_run none = .processExit 1 :=
  ⟨rfl, rfl⟩

/-!
## Claim C7 — header-less input
-/

/-- C7: evaluation of the code at the failing input.  For the file
consisting of the single line `ACGT` (no `>` header anywhere), the
reader returns the empty header together with the EMPTY sequence — the
header-search loop consumes the entire file before the sequence loop
runs, so the bases are lost, contradicting the claim (and the
repository's own `eval.py`, whose `get_dna_payload` reads the bases of
a header-less file). -/
theorem C7_headerless_reader :
    read_fasta [['A', 'C', 'G', 'T']] = ([], []) ∧
    get_dna_payload ('A' :: 'C' :: 'G' :: 'T' :: '\n' :: []) = ['A', 'C', 'G', 'T'] ∧
    ([] : List Char) ≠ ['A', 'C', 'G', 'T'] :=
  ⟨rfl, rfl, by decide⟩

/-!
## Claim C8 — count invariants
-/

/-- C8 (counterexample): the claim fails as stated because the counts
are `numpy` `uint32` values and wrap.  After `2^32 - 1` consecutive
`update` calls on one context and symbol, that count has wrapped to 0,
violating "every count is at least 1 at all times". -/
theorem C8_counterexample :
    ¬ countsGe1 (runOps (List.replicate (UINT32 - 1)
      (ModelOp.update (List.replicate CONTEXT_LENGTH 'N') (0 : Fin 4)))) := by
  intro hge
  have hm := runOps_replicate_update (List.replicate CONTEXT_LENGTH 'N')
    (UINT32 - 1) (by decide)
  have hlook : lookupCtx (runOps (List.replicate (UINT32 - 1)
      (ModelOp.update (List.replicate CONTEXT_LENGTH 'N') (0 : Fin 4)))).model
      (List.replicate CONTEXT_LENGTH 'N')
      = some ((List.replicate 4 1).set 0 ((1 + (UINT32 - 1)) % UINT32)) := by
    rw [hm, lookupCtx, if_pos rfl]
  have h0 := hge _ _ hlook 0 (by omega)
  rw [getD_set_self (by simp) _] at h0
  rw [show (1 + (UINT32 - 1)) % UINT32 = 0 from by decide] at h0
  omega

/-- C8 (amended): as long as fewer than `2^32 - 1` operations are
performed (so no `uint32` counter can wrap), every count in every
frequency-table row is at least 1 after every prefix of the operation
sequence, no count ever decreases from one step to the next, and the
table is append-only: a context key, once present, is never removed. -/
theorem C8_counts_invariant (ops : List ModelOp) (h : ops.length + 1 < 2 ^ 32) :
    ∀ t : Nat, countsGe1 (runOps (ops.take t)) ∧
      countsMono (runOps (ops.take t)) (runOps (ops.take (t + 1))) ∧
      keysKept (runOps (ops.take t)) (runOps (ops.take (t + 1))) := by
  intro t
  have hU : ops.length + 1 < UINT32 := h
  have htake : (ops.take t).length + 1 < UINT32 := by
    simp only [List.length_take]
    omega
  obtain ⟨h1, h2, h3, h4⟩ := runOps_inv (ops.take t) htake
  refine ⟨h3, ?_⟩
  by_cases hlt : t < ops.length
  · have hsucc : ops.take (t + 1) = ops.take t ++ [ops[t]] := by
      rw [List.take_succ, List.getElem?_eq_getElem hlt, Option.toList_some]
    have hB : 1 + (ops.take t).length + 1 < UINT32 := by
      simp only [List.length_take]
      omega
    have hstep := applyOp_inv ops[t] h1 h2 h3 h4 (by omega) hB
    rw [hsucc, runOps_append]
    exact ⟨hstep.2.2.2.2.1, hstep.2.2.2.2.2⟩
  · have heq : ops.take (t + 1) = ops.take t := by
      rw [List.take_of_length_le (by omega), List.take_of_length_le (by omega)]
    rw [heq]
    exact ⟨countsMono_refl _, keysKept_refl _⟩

/-- C8 (witness): a single update operation, checked after one step. -/
theorem C8_counts_invariant_witness :
    (([ModelOp.update (List.replicate CONTEXT_LENGTH 'N') (0 : Fin 4)] :
        List ModelOp).length + 1 < 2 ^ 32) ∧
    (countsGe1 (runOps (([ModelOp.update (List.replicate CONTEXT_LENGTH 'N')
        (0 : Fin 4)] : List ModelOp).take 1)) ∧
     countsMono
       (runOps (([ModelOp.update (List.replicate CONTEXT_LENGTH 'N')
         (0 : Fin 4)] : List ModelOp).take 1))
       (runOps (([ModelOp.update (List.replicate CONTEXT_LENGTH 'N')
         (0 : Fin 4)] : List ModelOp).take 2)) ∧
     keysKept
       (runOps (([ModelOp.update (List.replicate CONTEXT_LENGTH 'N')
         (0 : Fin 4)] : List ModelOp).take 1))
       (runOps (([ModelOp.update (List.replicate CONTEXT_LENGTH 'N')
         (0 : Fin 4)] : List ModelOp).take 2))) :=
  ⟨by decide,
   C8_counts_invariant
     [ModelOp.update (List.replicate CONTEXT_LENGTH 'N') (0 : Fin 4)] (by decide) 1⟩

/-!
## Claim C9 — wrapped text output
-/

/-- C9: a non-empty decompression's output text is the header line
followed by the sequence wrapped at 70 characters per line with a
trailing newline after every line (splitting the rendered text at
newlines yields the header, then the chunks, then the empty tail after
the final newline): there are `ceil(n/70)` sequence lines, every one
before the last is exactly 70 characters, the last is between 1 and 70
characters, and their concatenation is the whole sequence. -/
theorem C9_wrapped_output (h S : List Char) (hne : S ≠ [])
    (hnl : '\n' ∉ h) (hval : ∀ c ∈ S, c ∈ DNA_ALPHABET) :
    splitNl (render_output h S) = h :: (wrapLines S ++ [[]]) ∧
    (wrapLines S).length = (S.length + 69) / 70 ∧
    (∀ (i : Nat) (hi : i < (wrapLines S).length), i + 1 < (wrapLines S).length →
      ((wrapLines S).get ⟨i, hi⟩).length = 70) ∧
    (∀ l, (wrapLines S).getLast? = some l → 1 ≤ l.length ∧ l.length ≤ 70) ∧
    (wrapLines S).flatten = S := by
  refine ⟨?_, wrapLines_length S, fun i hi hl => wrapLines_get S i hi hl,
    fun l hl => wrapLines_getLast S l hl, wrapLines_flatten S⟩
  unfold render_output
  rw [show (h ++ ['\n']) ++ (wrapLines S).flatMap (fun l => l ++ ['\n'])
      = h ++ '\n' :: (wrapLines S).flatMap (fun l => l ++ ['\n']) by simp]
  rw [splitNl_append_newline _ _ hnl, splitNl_chunks]
  intro l hl hmem
  exact (base_facts (hval _ (wrapLines_mem hl hmem))).2.2.2.2.1 rfl

/-- C9 (witness): header `>x` and the four-base sequence `ACGT`. -/
theorem C9_wrapped_output_witness :
    ((['A', 'C', 'G', 'T'] : List Char) ≠ []) ∧ ('\n' ∉ ['>', 'x']) ∧
    (∀ c ∈ ['A', 'C', 'G', 'T'], c ∈ DNA_ALPHABET) ∧
    (splitNl (render_output ['>', 'x'] ['A', 'C', 'G', 'T'])
      = ['>', 'x'] :: (wrapLines ['A', 'C', 'G', 'T'] ++ [[]]) ∧
     (wrapLines ['A', 'C', 'G', 'T']).length
       = ((['A', 'C', 'G', 'T'] : List Char).length + 69) / 70 ∧
     (∀ (i : Nat) (hi : i < (wrapLines ['A', 'C', 'G', 'T']).length),
        i + 1 < (wrapLines ['A', 'C', 'G', 'T']).length →
        ((wrapLines ['A', 'C', 'G', 'T']).get ⟨i, hi⟩).length = 70) ∧
     (∀ l, (wrapLines ['A', 'C', 'G', 'T']).getLast? = some l →
        1 ≤ l.length ∧ l.length ≤ 70) ∧
     (wrapLines ['A', 'C', 'G', 'T']).flatten = ['A', 'C', 'G', 'T']) :=
  ⟨by decide, by decide, by decide,
   C9_wrapped_output ['>', 'x'] ['A', 'C', 'G', 'T'] (by decide) (by decide) (by decide)⟩

/-!
## Claim C10 — no output before both passes complete
-/

/-- C10: on a non-empty sequence, the event trace of `compress_file` is
read-input, pass-1 done, pass-2 done, open-output, write-bytes, in that
order; an exception aborts the run at a prefix of the trace, so any
prefix in which pass 2 has not completed contains neither the opening of
the output file nor a write to it — a failure during reading, modelling
or encoding leaves the output path untouched. -/
theorem C10_write_after_passes (input : Option (List (List Char)))
    (lines : List (List Char)) (hin : input = some lines)
    (hne : (read_fasta lines).2 ≠ []) :
    ∀ k : Nat, CEv.pass2Done ∉ (compress_file_tr input).2.take k →
      CEv.openOutput ∉ (compress_file_tr input).2.take k ∧
      CEv.writeBytes ∉ (compress_file_tr input).2.take k := by
  subst hin
  unfold compress_file_tr
  simp only
  rw [if_neg (fun h0 => hne (List.length_eq_zero.mp h0))]
  cases hp : pass1 (initModel, initQueue) (read_fasta lines).2 with
  | none =>
      intro k hk
      simp only
      constructor <;>
        · intro hmem
          have := List.mem_of_mem_take hmem
          simp at this
  | some p =>
      obtain ⟨mq, states⟩ := p
      simp only
      cases hw : writeContainer (read_fasta lines).2.length
          (utf8Encode (read_fasta lines).1) (ansEncodeAll states) with
      | none =>
          simp only
          intro k
          rcases k with - | - | - | k
          · intro _; constructor <;> simp
          · intro _; constructor <;> · intro hmem; simp at hmem
          · intro _; constructor <;> · intro hmem; simp at hmem
          · intro hk
            exfalso
            apply hk
            simp only [List.take_succ_cons]
            exact List.mem_cons_of_mem _ (List.mem_cons_of_mem _ (List.mem_cons_self _ _))
      | some bs =>
          simp only
          intro k
          rcases k with - | - | - | k
          · intro _; constructor <;> simp
          · intro _; constructor <;> · intro hmem; simp at hmem
          · intro _; constructor <;> · intro hmem; simp at hmem
          · intro hk
            exfalso
            apply hk
            simp only [List.take_succ_cons]
            exact List.mem_cons_of_mem _ (List.mem_cons_of_mem _ (List.mem_cons_self _ _))

/-- C10 (witness): a concrete non-empty compression, checked at the
abort point just after pass 1. -/
theorem C10_write_after_passes_witness :
    (some [['>', 'h'], ['A', 'C', 'G', 'T']]
      = some [['>', 'h'], ['A', 'C', 'G', 'T']]) ∧
    ((read_fasta [['>', 'h'], ['A', 'C', 'G', 'T']]).2 ≠ []) ∧
    (CEv.pass2Done ∉
        (compress_file_tr (some [['>', 'h'], ['A', 'C', 'G', 'T']])).2.take 2 →
      CEv.openOutput ∉
        (compress_file_tr (some [['>', 'h'], ['A', 'C', 'G', 'T']])).2.take 2 ∧
      CEv.writeBytes ∉
        (compress_file_tr (some [['>', 'h'], ['A', 'C', 'G', 'T']])).2.take 2) :=
  ⟨rfl, by decide,
   C10_write_after_passes (some [['>', 'h'], ['A', 'C', 'G', 'T']])
     [['>', 'h'], ['A', 'C', 'G', 'T']] rfl (by decide) 2⟩
